import Mathlib

/-!  Verification development for the dago-domenai domain-health scanner.

Shallow embedding of the profile dependency resolver
(src/profiles/profile_schema.py, src/profiles/profile_loader.py),
the per-domain orchestration pipeline (src/orchestrator.py),
the result-record schema (src/core/schema.py) and the
domain-family string classifier (src/utils/domain_utils.py).

Python dicts keyed by strings are modelled as association lists,
Python sets as duplicate-free lists in insertion order, and the
unbounded `while` loops of the resolver as fuel-indexed recursions
returning `Option` (`none` standing for a run that would not have
finished); fuel-sufficiency theorems below show the fuel never
binds.  Network collaborators are oracle inputs: the pipeline is a
pure function of their recorded outputs. -/

namespace Dago

/-- Category tags of PROFILE_METADATA (profile_schema.py, class ProfileCategory). -/
inductive ProfileCategory where
  | core
  | analysis
  | intelligence
  | metaBundle
deriving DecidableEq, Repr

/-- A profile dependency table: the shape of PROFILE_DEPENDENCIES. -/
abbrev DepTable := List (String × List String)

/-- Association-list lookup, modelling Python `dict.get`. -/
def alist_get {α : Type} (table : List (String × α)) (key : String) : Option α :=
  match table with
  | [] => none
  | (k, v) :: rest => if k = key then some v else alist_get rest key

/-- PROFILE_DEPENDENCIES from profile_schema.py (lines 57-88), verbatim. -/
def PROFILE_DEPENDENCIES : DepTable :=
  [ ("quick-whois", []),
    ("whois", []),
    ("dns", []),
    ("http", []),
    ("ssl", []),
    ("headers", ["http"]),
    ("content", ["http"]),
    ("infrastructure", ["dns", "http"]),
    ("technology", ["http", "content"]),
    ("seo", ["http", "content"]),
    ("security", ["http", "headers", "ssl"]),
    ("compliance", ["http", "content", "headers"]),
    ("business", ["whois", "http", "content"]),
    ("language", ["http", "content"]),
    ("fingerprinting", ["http", "content"]),
    ("clustering", ["dns", "whois"]),
    ("quick-check", ["quick-whois", "http"]),
    ("standard", ["whois", "dns", "http", "ssl", "seo"]),
    ("technical-audit", ["whois", "dns", "http", "ssl", "headers", "security", "infrastructure", "technology"]),
    ("business-research", ["whois", "dns", "http", "ssl", "business", "language", "clustering"]),
    ("complete", ["whois", "dns", "http", "ssl", "headers", "content", "infrastructure",
                  "technology", "seo", "security", "compliance", "business", "language"]),
    ("monitor", ["quick-whois", "http"]) ]

/-- The `category` field of each PROFILE_METADATA entry (profile_schema.py lines 92-285). -/
def PROFILE_CATEGORIES : List (String × ProfileCategory) :=
  [ ("quick-whois", .core),
    ("whois", .core),
    ("dns", .core),
    ("http", .core),
    ("ssl", .core),
    ("headers", .analysis),
    ("content", .analysis),
    ("infrastructure", .analysis),
    ("technology", .analysis),
    ("seo", .analysis),
    ("security", .intelligence),
    ("compliance", .intelligence),
    ("business", .intelligence),
    ("language", .intelligence),
    ("fingerprinting", .intelligence),
    ("clustering", .intelligence),
    ("quick-check", .metaBundle),
    ("standard", .metaBundle),
    ("technical-audit", .metaBundle),
    ("business-research", .metaBundle),
    ("complete", .metaBundle),
    ("monitor", .metaBundle) ]

/-- `validate_profile_name`, generalized over the dependency table it consults
(`profile in PROFILE_DEPENDENCIES`). -/
def validate_profile_name_in (table : DepTable) (p : String) : Bool :=
  (alist_get table p).isSome

/-- `get_profile_dependencies`, generalized over the table
(`PROFILE_DEPENDENCIES.get(profile, [])`). -/
def get_profile_dependencies_in (table : DepTable) (p : String) : List String :=
  (alist_get table p).getD []

/-- `get_profile_category` (metadata lookup of the `category` field). -/
def get_profile_category (p : String) : Option ProfileCategory :=
  alist_get PROFILE_CATEGORIES p

/-- `is_core_profile`. -/
def is_core_profile (p : String) : Bool :=
  get_profile_category p = some ProfileCategory.core

/-- `is_meta_profile`. -/
def is_meta_profile (p : String) : Bool :=
  get_profile_category p = some ProfileCategory.metaBundle

/-- `validate_profile_name` against the real registry. -/
def validate_profile_name (p : String) : Bool :=
  validate_profile_name_in PROFILE_DEPENDENCIES p

/-- `get_profile_dependencies` against the real registry. -/
def get_profile_dependencies (p : String) : List String :=
  get_profile_dependencies_in PROFILE_DEPENDENCIES p

/-- Errors of profile_loader.py: UnknownProfileError and CircularDependencyError
(the latter carrying the unresolved node set it is formatted from). -/
inductive ProfileErr where
  | unknownProfile (name : String)
  | circularDependency (missing : List String)
deriving DecidableEq, Repr

/-- Set-union on insertion-ordered duplicate-free lists (`set.update`). -/
def listUnion (xs ys : List String) : List String :=
  xs ++ ys.filter (fun y => !(xs.contains y))

/-- `expand_meta_profiles` (profile_loader.py lines 72-103), generalized over the
table and indexed by recursion fuel: the Python function recurses into every
meta profile's dependency list; `none` models a recursion that would not
terminate.  The accumulated Python `set` is modelled as a duplicate-free list. -/
def expand_meta_profiles_in (table : DepTable) :
    Nat → List String → Option (Except ProfileErr (List String))
  | _, [] => some (Except.ok [])
  | fuel, p :: ps =>
    if !(validate_profile_name_in table p) then
      some (Except.error (ProfileErr.unknownProfile p))
    else if is_meta_profile p then
      match fuel with
      | 0 => none
      | Nat.succ f =>
        match expand_meta_profiles_in table f (get_profile_dependencies_in table p) with
        | none => none
        | some (Except.error e) => some (Except.error e)
        | some (Except.ok sub) =>
          match expand_meta_profiles_in table (Nat.succ f) ps with
          | none => none
          | some (Except.error e) => some (Except.error e)
          | some (Except.ok rest) => some (Except.ok (listUnion sub rest))
    else
      match expand_meta_profiles_in table fuel ps with
      | none => none
      | some (Except.error e) => some (Except.error e)
      | some (Except.ok rest) => some (Except.ok (listUnion [p] rest))
termination_by fuel l => (fuel, l.length)

/-- Meta nesting in the registry is at most one level deep (every meta's
dependencies are non-meta), so depth fuel 7 (number of meta profiles + 1)
is more than enough; the sufficiency lemmas below prove the fuel never binds. -/
def EXPAND_FUEL : Nat := 7

/-- `expand_meta_profiles` against the real registry. -/
def expand_meta_profiles (profiles : List String) : Option (Except ProfileErr (List String)) :=
  expand_meta_profiles_in PROFILE_DEPENDENCIES EXPAND_FUEL profiles

/-- One dependency scan of the closure loop of `resolve_profile_dependencies`
(profile_loader.py lines 138-145): `for dep in deps: if dep not in all_profiles:
all_profiles.add(dep); queue.append(dep)`.  State is (all_profiles, queue). -/
def collect_step (deps : List String) (s : List String × List String) :
    List String × List String :=
  deps.foldl
    (fun (s : List String × List String) dep =>
      if s.1.contains dep then s else (s.1 ++ [dep], s.2 ++ [dep]))
    s

/-- The `while queue:` closure loop (profile_loader.py lines 134-145), fuel-indexed. -/
def collect_all_profiles_in (table : DepTable) :
    Nat → List String → List String → Option (List String)
  | _, all, [] => some all
  | 0, _, _ :: _ => none
  | Nat.succ fuel, all, p :: rest =>
    let s := collect_step (get_profile_dependencies_in table p) (all, rest)
    collect_all_profiles_in table fuel s.1 s.2

/-- The in-degree map built by lines 149-156, as a fold over `all_profiles`
(`in_degree[profile] += 1` once per dependency of `profile`). -/
def build_in_degree_in (table : DepTable) (all : List String) : String → Int :=
  all.foldl
    (fun f p =>
      (get_profile_dependencies_in table p).foldl
        (fun g _dep => fun x => if x = p then g x + 1 else g x) f)
    (fun _ => 0)

/-- The adjacency map built by lines 149-156
(`adj_list[dep].append(profile)` once per dependency of `profile`). -/
def build_adj_list_in (table : DepTable) (all : List String) : String → List String :=
  all.foldl
    (fun f p =>
      (get_profile_dependencies_in table p).foldl
        (fun g dep => fun x => if x = dep then g x ++ [p] else g x) f)
    (fun _ => [])

/-- One pass over `adj_list[profile]` after popping `profile`
(profile_loader.py lines 166-170): decrement each dependent's in-degree and
append it to the queue when the in-degree reaches zero.  State is
(in_degree, queue-after-the-pop). -/
def kahn_step (dependents : List String) (s : (String → Int) × List String) :
    (String → Int) × List String :=
  dependents.foldl
    (fun (s : (String → Int) × List String) dependent =>
      let d := s.1 dependent - 1
      let g : String → Int := fun x => if x = dependent then d else s.1 x
      if d = 0 then (g, s.2 ++ [dependent]) else (g, s.2))
    s

/-- The `while queue:` loop of Kahn's algorithm (lines 162-170), fuel-indexed. -/
def kahn_loop (adj : String → List String) :
    Nat → (String → Int) → List String → List String → Option (List String)
  | _, _, [], sorted => some sorted
  | 0, _, _ :: _, _ => none
  | Nat.succ fuel, indeg, p :: rest, sorted =>
    let s := kahn_step (adj p) (indeg, rest)
    kahn_loop adj fuel s.1 s.2 (sorted ++ [p])

/-- `resolve_profile_dependencies` (profile_loader.py lines 106-179),
generalized over the dependency table.  The outer `Option` is the fuel
artifact (`none` = a run that would not have finished); the fuel of the
closure loop is an upper bound on its iteration count (initial queue plus
every dependency occurrence in the table), the fuel of the Kahn loop is the
node count, and the sufficiency theorems below show neither ever binds. -/
def resolve_profile_dependencies_in (table : DepTable) (profiles : List String) :
    Option (Except ProfileErr (List String)) :=
  match expand_meta_profiles_in table EXPAND_FUEL profiles with
  | none => none
  | some (Except.error e) => some (Except.error e)
  | some (Except.ok expanded) =>
    match collect_all_profiles_in table
        (expanded.length + ((table.map (fun kv => kv.2)).flatten).length)
        expanded expanded with
    | none => none
    | some all =>
      let indeg := build_in_degree_in table all
      let adj := build_adj_list_in table all
      let queue := all.filter (fun p => indeg p = 0)
      match kahn_loop adj all.length indeg queue [] with
      | none => none
      | some sorted =>
        if sorted.length ≠ all.length then
          some (Except.error
            (ProfileErr.circularDependency (all.filter (fun p => !(sorted.contains p)))))
        else
          some (Except.ok sorted)

/-- `resolve_profile_dependencies` against the real registry. -/
def resolve_profile_dependencies (profiles : List String) :
    Option (Except ProfileErr (List String)) :=
  resolve_profile_dependencies_in PROFILE_DEPENDENCIES profiles

/-- `estimate_duration` (profile_schema.py lines 390-413). -/
def estimate_duration (profiles : List String) : String :=
  let core_count := (profiles.filter (fun p => is_core_profile p)).length
  if core_count ≤ 1 then "0.5-2s"
  else if core_count = 2 then "1.5-4s"
  else if core_count ≤ 4 then "3-7s"
  else "4-10s"

/-- The `while remaining:` parallel-group loop of `get_profile_execution_plan`
(profile_loader.py lines 308-325), fuel-indexed.  State is
(groups-so-far, remaining, satisfied); the Python sets `remaining` and
`satisfied` are modelled as duplicate-free lists. -/
def parallel_groups_loop :
    Nat → List (List String) → List String → List String → Option (List (List String))
  | _, groups, [], _ => some groups
  | 0, _, _ :: _, _ => none
  | Nat.succ fuel, groups, remaining@(_ :: _), satisfied =>
    let can_run := remaining.filter
      (fun p => (get_profile_dependencies p).all (fun dep => satisfied.contains dep))
    if can_run.isEmpty then
      some groups
    else
      parallel_groups_loop fuel (groups ++ [can_run])
        (remaining.filter (fun p => !(can_run.contains p)))
        (satisfied ++ can_run)

/-- The dictionary returned by `get_profile_execution_plan`. -/
structure ExecutionPlan where
  requested : List String
  expanded : List String
  execution_order : List String
  core_profiles : List String
  analysis_profiles : List String
  parallel_groups : List (List String)
  estimated_duration : String
  total_profiles : Nat
deriving DecidableEq, Repr

/-- `get_profile_execution_plan` (profile_loader.py lines 269-340).  The outer
`Option` is again the fuel artifact and the inner `Except` the Python
exceptions propagating out of the resolver. -/
def get_profile_execution_plan (profiles : List String) :
    Option (Except ProfileErr ExecutionPlan) :=
  match resolve_profile_dependencies profiles with
  | none => none
  | some (Except.error e) => some (Except.error e)
  | some (Except.ok execution_order) =>
    match parallel_groups_loop execution_order.length [] execution_order [] with
    | none => none
    | some groups =>
      match expand_meta_profiles profiles with
      | none => none
      | some (Except.error e) => some (Except.error e)
      | some (Except.ok expanded) =>
        some (Except.ok
          { requested := profiles
            expanded := expanded
            execution_order := execution_order
            core_profiles := execution_order.filter (fun p => is_core_profile p)
            analysis_profiles := execution_order.filter
              (fun p => !(is_core_profile p) && !(is_meta_profile p))
            parallel_groups := groups
            estimated_duration := estimate_duration execution_order
            total_profiles := execution_order.length })

/-! ### Registry facts

Decidable checks on the concrete registry, lifted to pointwise statements
about `get_profile_dependencies`. -/

theorem alist_get_mem {α : Type} {t : List (String × α)} {k : String} {v : α} :
    alist_get t k = some v → (k, v) ∈ t := by
  induction t with
  | nil => intro h; simp [alist_get] at h
  | cons kv rest ih =>
    intro h
    obtain ⟨k0, v0⟩ := kv
    rw [alist_get] at h
    by_cases hk : k0 = k
    · subst hk
      simp at h
      subst h
      exact List.mem_cons_self _ _
    · simp only [if_neg hk] at h
      exact List.mem_cons_of_mem _ (ih h)

theorem get_deps_cases (T : DepTable) (p : String) :
    get_profile_dependencies_in T p = [] ∨ (p, get_profile_dependencies_in T p) ∈ T := by
  unfold get_profile_dependencies_in
  cases h : alist_get T p with
  | none => left; rfl
  | some l => right; exact alist_get_mem h

/-- Bridge from a decidable per-row check on a table to a pointwise statement
about dependency lists. -/
theorem table_all_deps {T : DepTable} {P : String → String → Bool}
    (h : T.all (fun kv => kv.2.all (fun d => P kv.1 d)) = true) :
    ∀ p, ∀ d ∈ get_profile_dependencies_in T p, P p d = true := by
  intro p d hd
  rcases get_deps_cases T p with he | hm
  · rw [he] at hd; simp at hd
  · rw [List.all_eq_true] at h
    have := h _ hm
    rw [List.all_eq_true] at this
    exact this d hd

/-- Every dependency named in the registry is itself a registry profile. -/
theorem reg_dep_valid :
    ∀ p, ∀ d ∈ get_profile_dependencies p, validate_profile_name d = true :=
  table_all_deps (P := fun _ d => validate_profile_name d) (by decide)

/-- No dependency list in the registry mentions a meta profile. -/
theorem reg_dep_nonmeta :
    ∀ p, ∀ d ∈ get_profile_dependencies p, is_meta_profile d = false := by
  have h := table_all_deps (T := PROFILE_DEPENDENCIES)
    (P := fun _ d => !(is_meta_profile d)) (by decide)
  intro p d hd
  have := h p d hd
  simpa using this

/-- A rank function witnessing that the registry dependency graph is acyclic:
every dependency has strictly smaller rank than its dependent. -/
def PROFILE_RANKS : List (String × Nat) :=
  [ ("quick-whois", 0), ("whois", 0), ("dns", 0), ("http", 0), ("ssl", 0),
    ("headers", 1), ("content", 1), ("infrastructure", 1), ("clustering", 1),
    ("technology", 2), ("seo", 2), ("security", 2), ("compliance", 2),
    ("business", 2), ("language", 2), ("fingerprinting", 2),
    ("quick-check", 3), ("standard", 3), ("technical-audit", 3),
    ("business-research", 3), ("complete", 3), ("monitor", 3) ]

def profileRank (p : String) : Nat :=
  (alist_get PROFILE_RANKS p).getD 0

theorem reg_rank_lt :
    ∀ p, ∀ d ∈ get_profile_dependencies p, profileRank d < profileRank p := by
  have h := table_all_deps (T := PROFILE_DEPENDENCIES)
    (P := fun p d => decide (profileRank d < profileRank p)) (by decide)
  intro p d hd
  have := h p d hd
  exact of_decide_eq_true this

/-! ### Meta expansion: lemmas -/

theorem mem_listUnion {x : String} {a b : List String} :
    x ∈ listUnion a b ↔ x ∈ a ∨ x ∈ b := by
  simp only [listUnion, List.mem_append, List.mem_filter]
  constructor
  · rintro (h | ⟨h, _⟩)
    · exact Or.inl h
    · exact Or.inr h
  · rintro (h | h)
    · exact Or.inl h
    · by_cases ha : x ∈ a
      · exact Or.inl ha
      · refine Or.inr ⟨h, ?_⟩
        simpa using ha

theorem nodup_listUnion {a b : List String} (ha : a.Nodup) (hb : b.Nodup) :
    (listUnion a b).Nodup := by
  refine List.Nodup.append ha (hb.filter _) ?_
  intro x hxa hxb
  rw [List.mem_filter] at hxb
  have : x ∈ a := hxa
  simp [this] at hxb

/-- Soundness of `expand_meta_profiles`: a successful expansion is a
duplicate-free list of table-valid, non-meta profile names. -/
theorem expand_spec (table : DepTable) :
    ∀ fuel l E, expand_meta_profiles_in table fuel l = some (Except.ok E) →
      E.Nodup ∧ ∀ x ∈ E, validate_profile_name_in table x = true ∧ is_meta_profile x = false := by
  intro fuel l
  induction fuel, l using expand_meta_profiles_in.induct table with
  | case1 fuel =>
    intro E hE
    rw [expand_meta_profiles_in] at hE
    simp only [Option.some.injEq, Except.ok.injEq] at hE
    subst hE
    exact ⟨List.nodup_nil, by simp⟩
  | case2 fuel p ps hval =>
    intro E hE
    rw [expand_meta_profiles_in.eq_def] at hE
    simp [hval] at hE
  | case3 p ps hval hmeta =>
    intro E hE
    rw [expand_meta_profiles_in] at hE
    simp [hval, hmeta] at hE
  | case4 p ps hval hmeta f hsub ih =>
    intro E hE
    rw [expand_meta_profiles_in] at hE
    simp [hval, hmeta, hsub] at hE
  | case5 p ps hval hmeta f e hsub ih =>
    intro E hE
    rw [expand_meta_profiles_in] at hE
    simp [hval, hmeta, hsub] at hE
  | case6 p ps hval hmeta f sub hsub hrest ih1 ih2 =>
    intro E hE
    rw [expand_meta_profiles_in] at hE
    simp [hval, hmeta, hsub, hrest] at hE
  | case7 p ps hval hmeta f sub hsub e hrest ih1 ih2 =>
    intro E hE
    rw [expand_meta_profiles_in] at hE
    simp [hval, hmeta, hsub, hrest] at hE
  | case8 p ps hval hmeta f sub hsub rest hrest ih1 ih2 =>
    intro E hE
    rw [expand_meta_profiles_in] at hE
    simp only [hval, hmeta, hsub, hrest, Bool.false_eq_true, if_false, if_true,
      Option.some.injEq, Except.ok.injEq] at hE
    obtain ⟨hnd1, hm1⟩ := ih1 sub hsub
    obtain ⟨hnd2, hm2⟩ := ih2 rest hrest
    subst hE
    refine ⟨nodup_listUnion hnd1 hnd2, ?_⟩
    intro x hx
    rcases mem_listUnion.1 hx with h | h
    · exact hm1 x h
    · exact hm2 x h
  | case9 fuel p ps hval hmeta hrest =>
    intro E hE
    rw [expand_meta_profiles_in.eq_def] at hE
    simp [hval, hmeta, hrest] at hE
  | case10 fuel p ps hval hmeta e hrest ih =>
    intro E hE
    rw [expand_meta_profiles_in.eq_def] at hE
    simp [hval, hmeta, hrest] at hE
  | case11 fuel p ps hval hmeta rest hrest ih =>
    intro E hE
    rw [expand_meta_profiles_in.eq_def] at hE
    simp only [hval, hmeta, hrest, Bool.false_eq_true, if_false, if_true,
      Option.some.injEq, Except.ok.injEq] at hE
    obtain ⟨hnd, hm⟩ := ih rest hrest
    subst hE
    have hvalp : validate_profile_name_in table p = true := by
      cases hv : validate_profile_name_in table p
      · simp [hv] at hval
      · rfl
    refine ⟨nodup_listUnion (List.nodup_singleton p) hnd, ?_⟩
    intro x hx
    rcases mem_listUnion.1 hx with h | h
    · rw [List.mem_singleton] at h
      subst h
      exact ⟨hvalp, by simpa using hmeta⟩
    · exact hm x h

/-- Expansion of a meta-free list consumes no depth fuel and always succeeds. -/
theorem expand_nonmeta_ok (table : DepTable) :
    ∀ l, (∀ x ∈ l, validate_profile_name_in table x = true ∧ is_meta_profile x = false) →
      ∀ fuel, ∃ E, expand_meta_profiles_in table fuel l = some (Except.ok E) := by
  intro l
  induction l with
  | nil => exact fun _ fuel => ⟨[], by rw [expand_meta_profiles_in]⟩
  | cons p ps ih =>
    intro h fuel
    obtain ⟨hv, hm⟩ := h p (List.mem_cons_self _ _)
    obtain ⟨E, hE⟩ := ih (fun x hx => h x (List.mem_cons_of_mem _ hx)) fuel
    refine ⟨listUnion [p] E, ?_⟩
    rw [expand_meta_profiles_in.eq_def]
    simp [hv, hm, hE]

/-- Expansion of a meta-free list never diverges, valid names or not. -/
theorem expand_nonmeta_ne_none (table : DepTable) :
    ∀ l, (∀ x ∈ l, is_meta_profile x = false) →
      ∀ fuel, expand_meta_profiles_in table fuel l ≠ none := by
  intro l
  induction l with
  | nil => intro _ fuel; rw [expand_meta_profiles_in]; simp
  | cons p ps ih =>
    intro h fuel
    have hm := h p (List.mem_cons_self _ _)
    rw [expand_meta_profiles_in.eq_def]
    by_cases hv : validate_profile_name_in table p = true
    · have hrec := ih (fun x hx => h x (List.mem_cons_of_mem _ hx)) fuel
      cases hrest : expand_meta_profiles_in table fuel ps with
      | none => exact absurd hrest hrec
      | some r =>
        cases r with
        | error e => simp [hv, hm, hrest]
        | ok rest => simp [hv, hm, hrest]
    · simp only [Bool.not_eq_true] at hv
      simp [hv]

/-- When every meta profile of the table has a meta-free dependency list
(a decidable property of the real registry), one unit of depth fuel already
suffices: expansion never diverges on any input list. -/
theorem expand_ne_none (table : DepTable)
    (hdm : ∀ p, ∀ d ∈ get_profile_dependencies_in table p, is_meta_profile d = false) :
    ∀ l fuel, expand_meta_profiles_in table (Nat.succ fuel) l ≠ none := by
  intro l
  induction l with
  | nil => intro fuel; rw [expand_meta_profiles_in]; simp
  | cons p ps ih =>
    intro fuel
    rw [expand_meta_profiles_in.eq_def]
    by_cases hv : validate_profile_name_in table p = true
    · by_cases hm : is_meta_profile p = true
      · cases hsub : expand_meta_profiles_in table fuel (get_profile_dependencies_in table p) with
        | none => exact absurd hsub (expand_nonmeta_ne_none table _ (hdm p) fuel)
        | some r =>
          cases r with
          | error e => simp [hv, hm, hsub]
          | ok sub =>
            cases hrest : expand_meta_profiles_in table (Nat.succ fuel) ps with
            | none => exact absurd hrest (ih fuel)
            | some r2 =>
              cases r2 with
              | error e => simp [hv, hm, hsub, hrest]
              | ok rest => simp [hv, hm, hsub, hrest]
      · simp only [Bool.not_eq_true] at hm
        cases hrest : expand_meta_profiles_in table (Nat.succ fuel) ps with
        | none => exact absurd hrest (ih fuel)
        | some r2 =>
          cases r2 with
          | error e => simp [hv, hm, hrest]
          | ok rest => simp [hv, hm, hrest]
    · simp only [Bool.not_eq_true] at hv
      simp [hv]

/-- With valid meta-free dependency lists throughout the table, expansion of
any list of valid names succeeds. -/
theorem expand_ok_of_valid (table : DepTable)
    (hdv : ∀ p, ∀ d ∈ get_profile_dependencies_in table p, validate_profile_name_in table d = true)
    (hdm : ∀ p, ∀ d ∈ get_profile_dependencies_in table p, is_meta_profile d = false) :
    ∀ l, (∀ x ∈ l, validate_profile_name_in table x = true) →
      ∀ fuel, ∃ E, expand_meta_profiles_in table (Nat.succ fuel) l = some (Except.ok E) := by
  intro l
  induction l with
  | nil => exact fun _ fuel => ⟨[], by rw [expand_meta_profiles_in]⟩
  | cons p ps ih =>
    intro h fuel
    have hv := h p (List.mem_cons_self _ _)
    obtain ⟨R, hR⟩ := ih (fun x hx => h x (List.mem_cons_of_mem _ hx)) fuel
    by_cases hm : is_meta_profile p = true
    · obtain ⟨S, hS⟩ := expand_nonmeta_ok table (get_profile_dependencies_in table p)
        (fun d hd => ⟨hdv p d hd, hdm p d hd⟩) fuel
      refine ⟨listUnion S R, ?_⟩
      rw [expand_meta_profiles_in.eq_def]
      simp [hv, hm, hS, hR]
    · simp only [Bool.not_eq_true] at hm
      refine ⟨listUnion [p] R, ?_⟩
      rw [expand_meta_profiles_in.eq_def]
      simp [hv, hm, hR]

/-! ### Dependency closure: lemmas -/

/-- Transitive dependency closure of a base set: reachability through
direct-dependency edges (the specification-side notion the closure loop of
`resolve_profile_dependencies` computes). -/
inductive Reach (table : DepTable) (base : List String) : String → Prop where
  | base {x} : x ∈ base → Reach table base x
  | step {p d} : Reach table base p → d ∈ get_profile_dependencies_in table p →
      Reach table base d

theorem reach_mem_of_closed {table : DepTable} {base r : List String}
    (hb : ∀ x ∈ base, x ∈ r)
    (hc : ∀ p ∈ r, ∀ d ∈ get_profile_dependencies_in table p, d ∈ r) :
    ∀ x, Reach table base x → x ∈ r := by
  intro x hx
  induction hx with
  | base h => exact hb _ h
  | step _ hd ih => exact hc _ ih _ hd

/-- All dependency occurrences of the table, deduplicated: the universe inside
which the closure loop grows `all_profiles`. -/
def deps_universe (table : DepTable) : List String :=
  ((table.map (fun kv => kv.2)).flatten).dedup

theorem deps_sub_universe (table : DepTable) (p : String) :
    ∀ d ∈ get_profile_dependencies_in table p, d ∈ deps_universe table := by
  intro d hd
  rcases get_deps_cases table p with he | hm
  · rw [he] at hd; simp at hd
  · unfold deps_universe
    rw [List.mem_dedup, List.mem_flatten]
    exact ⟨get_profile_dependencies_in table p, List.mem_map_of_mem _ hm, hd⟩

theorem collect_step_spec (deps : List String) :
    ∀ all q, ∃ δ,
      collect_step deps (all, q) = (all ++ δ, q ++ δ) ∧
      δ.Nodup ∧ (∀ x ∈ δ, x ∈ deps ∧ x ∉ all) ∧ (∀ d ∈ deps, d ∈ all ++ δ) := by
  induction deps with
  | nil =>
    intro all q
    exact ⟨[], by simp [collect_step], List.nodup_nil, by simp, by simp⟩
  | cons d ds ih =>
    intro all q
    by_cases hd : d ∈ all
    · obtain ⟨δ, h1, h2, h3, h4⟩ := ih all q
      refine ⟨δ, ?_, h2, ?_, ?_⟩
      · simpa [collect_step, List.foldl_cons, hd] using h1
      · exact fun x hx => ⟨List.mem_cons_of_mem _ (h3 x hx).1, (h3 x hx).2⟩
      · intro e he
        rcases List.mem_cons.1 he with rfl | he2
        · exact List.mem_append_left _ hd
        · exact h4 e he2
    · obtain ⟨δ, h1, h2, h3, h4⟩ := ih (all ++ [d]) (q ++ [d])
      refine ⟨d :: δ, ?_, ?_, ?_, ?_⟩
      · have : collect_step (d :: ds) (all, q) = collect_step ds (all ++ [d], q ++ [d]) := by
          simp [collect_step, List.foldl_cons, hd]
        rw [this, h1]
        simp
      · refine List.Nodup.cons ?_ h2
        intro hdm
        exact (h3 d hdm).2 (List.mem_append_right _ (List.mem_singleton.2 rfl))
      · intro x hx
        rcases List.mem_cons.1 hx with rfl | hx2
        · exact ⟨List.mem_cons_self _ _, hd⟩
        · obtain ⟨hxd, hxa⟩ := h3 x hx2
          refine ⟨List.mem_cons_of_mem _ hxd, fun hc => hxa (List.mem_append_left _ hc)⟩
      · intro e he
        rcases List.mem_cons.1 he with rfl | he2
        · simp
        · have := h4 e he2
          simp only [List.mem_append, List.mem_singleton, List.mem_cons] at this ⊢
          tauto

theorem filter_out_one {univ all : List String} {d : String}
    (hu : univ.Nodup) (hd : d ∈ univ) (hda : d ∉ all) :
    (univ.filter (fun x => x ∉ all ++ [d])).length + 1 =
      (univ.filter (fun x => x ∉ all)).length := by
  induction univ with
  | nil => simp at hd
  | cons u us ih =>
    rw [List.nodup_cons] at hu
    by_cases hud : u = d
    · subst hud
      have hkeep : (decide (u ∉ all)) = true := by simpa using hda
      have hdrop : (decide (u ∉ all ++ [u])) = false := by simp
      rw [List.filter_cons, List.filter_cons, hkeep, hdrop]
      have heq : us.filter (fun x => x ∉ all ++ [u]) = us.filter (fun x => x ∉ all) := by
        apply List.filter_congr
        intro x hx
        have hxu : x ≠ u := fun h => hu.1 (h ▸ hx)
        simp [hxu]
      rw [heq]
      simp
    · have hd2 : d ∈ us := by
        rcases List.mem_cons.1 hd with h | h
        · exact absurd h.symm hud
        · exact h
      have hsame : (decide (u ∉ all ++ [d])) = (decide (u ∉ all)) := by
        simp [hud]
      rw [List.filter_cons, List.filter_cons, hsame]
      have := ih hu.2 hd2
      cases hv : (decide (u ∉ all)) with
      | false => simpa [hv] using this
      | true =>
        simp only [hv, if_true, List.length_cons]
        omega

theorem filter_out_length {univ : List String} (hu : univ.Nodup) :
    ∀ (δ all : List String), δ.Nodup → (∀ x ∈ δ, x ∈ univ) → (∀ x ∈ δ, x ∉ all) →
      (univ.filter (fun x => x ∉ all ++ δ)).length + δ.length =
        (univ.filter (fun x => x ∉ all)).length := by
  intro δ
  induction δ with
  | nil =>
    intro all _ _ _
    have heq : univ.filter (fun x => x ∉ all ++ ([] : List String)) =
        univ.filter (fun x => x ∉ all) := by
      apply List.filter_congr
      intro x _
      simp
    rw [heq]
    simp
  | cons d δ ih =>
    intro all hnd hsub hfresh
    rw [List.nodup_cons] at hnd
    have step1 := ih (all ++ [d]) hnd.2
      (fun x hx => hsub x (List.mem_cons_of_mem _ hx))
      (fun x hx => by
        intro hmem
        rcases List.mem_append.1 hmem with h | h
        · exact hfresh x (List.mem_cons_of_mem _ hx) h
        · exact hnd.1 ((List.mem_singleton.1 h) ▸ hx))
    have hcong : univ.filter (fun x => x ∉ (all ++ [d]) ++ δ) =
        univ.filter (fun x => x ∉ all ++ d :: δ) := by
      apply List.filter_congr
      intro x _
      have : (x ∈ (all ++ [d]) ++ δ) ↔ (x ∈ all ++ d :: δ) := by
        simp only [List.mem_append, List.mem_singleton, List.mem_cons]
        tauto
      simp only [this]
    rw [hcong] at step1
    have step2 := filter_out_one hu (hsub d (List.mem_cons_self _ _))
      (hfresh d (List.mem_cons_self _ _))
    simp only [List.length_cons]
    omega

/-- Main specification of the closure loop: it terminates within the stated
fuel and returns a duplicate-free, dependency-closed superset of the seed
whose members are exactly reachable profiles. -/
theorem collect_spec (table : DepTable) (base : List String) :
    ∀ fuel all queue,
      all.Nodup →
      (∀ x ∈ queue, x ∈ all) →
      (∀ p ∈ all, p ∉ queue → ∀ d ∈ get_profile_dependencies_in table p, d ∈ all) →
      (∀ x ∈ all, Reach table base x) →
      queue.length + ((deps_universe table).filter (fun x => x ∉ all)).length ≤ fuel →
      ∃ r, collect_all_profiles_in table fuel all queue = some r ∧
        r.Nodup ∧ (∀ x ∈ all, x ∈ r) ∧
        (∀ p ∈ r, ∀ d ∈ get_profile_dependencies_in table p, d ∈ r) ∧
        (∀ x ∈ r, Reach table base x) := by
  intro fuel
  induction fuel with
  | zero =>
    intro all queue hnd hq hcl hr hfuel
    cases queue with
    | nil =>
      rw [collect_all_profiles_in]
      exact ⟨all, rfl, hnd, fun x h => h, fun p hp => hcl p hp (by simp), hr⟩
    | cons p rest => simp at hfuel
  | succ fuel ih =>
    intro all queue hnd hq hcl hr hfuel
    cases queue with
    | nil =>
      rw [collect_all_profiles_in]
      exact ⟨all, rfl, hnd, fun x h => h, fun p hp => hcl p hp (by simp), hr⟩
    | cons p rest =>
      obtain ⟨δ, hstep, hδnd, hδmem, hδcover⟩ :=
        collect_step_spec (get_profile_dependencies_in table p) all rest
      have hpall : p ∈ all := hq p (List.mem_cons_self _ _)
      have hδuniv : ∀ x ∈ δ, x ∈ deps_universe table :=
        fun x hx => deps_sub_universe table p x (hδmem x hx).1
      have hδfresh : ∀ x ∈ δ, x ∉ all := fun x hx => (hδmem x hx).2
      have hcount := @filter_out_length (deps_universe table)
        (List.nodup_dedup _) δ all hδnd hδuniv hδfresh
      have hnd' : (all ++ δ).Nodup :=
        List.Nodup.append hnd hδnd (fun x hxa hxδ => hδfresh x hxδ hxa)
      have hq' : ∀ x ∈ rest ++ δ, x ∈ all ++ δ := by
        intro x hx
        rcases List.mem_append.1 hx with h | h
        · exact List.mem_append_left _ (hq x (List.mem_cons_of_mem _ h))
        · exact List.mem_append_right _ h
      have hcl' : ∀ q ∈ all ++ δ, q ∉ rest ++ δ →
          ∀ d ∈ get_profile_dependencies_in table q, d ∈ all ++ δ := by
        intro q hqall hqq d hd
        rcases List.mem_append.1 hqall with hqa | hqδ
        · by_cases hqp : q = p
          · subst hqp
            exact hδcover d hd
          · have : q ∉ p :: rest := by
              intro hc
              rcases List.mem_cons.1 hc with h | h
              · exact hqp h
              · exact hqq (List.mem_append_left _ h)
            exact List.mem_append_left _ (hcl q hqa this d hd)
        · exact absurd (List.mem_append_right rest hqδ) hqq
      have hr' : ∀ x ∈ all ++ δ, Reach table base x := by
        intro x hx
        rcases List.mem_append.1 hx with h | h
        · exact hr x h
        · exact Reach.step (hr p hpall) (hδmem x h).1
      have hfuel' : (rest ++ δ).length +
          ((deps_universe table).filter (fun x => x ∉ all ++ δ)).length ≤ fuel := by
        rw [List.length_append]
        simp only [List.length_cons] at hfuel
        omega
      obtain ⟨r, hcoll, hrnd, hsub, hclr, hrr⟩ := ih (all ++ δ) (rest ++ δ) hnd' hq' hcl' hr' hfuel'
      refine ⟨r, ?_, hrnd, ?_, hclr, hrr⟩
      · rw [collect_all_profiles_in, hstep]
        exact hcoll
      · exact fun x hx => hsub x (List.mem_append_left _ hx)

/-! ### In-degree and adjacency maps: characterization -/

theorem indeg_inner_fold (deps : List String) (p : String) :
    ∀ (f : String → Int) (x : String),
      (deps.foldl (fun g _dep => fun y => if y = p then g y + 1 else g y) f) x
        = f x + (if x = p then (deps.length : Int) else 0) := by
  induction deps with
  | nil => intro f x; simp
  | cons d ds ih =>
    intro f x
    rw [List.foldl_cons, ih]
    by_cases hx : x = p
    · simp [hx]
      omega
    · simp [hx]

theorem build_in_degree_count (table : DepTable) :
    ∀ (all : List String) (f : String → Int) (x : String),
      (all.foldl
        (fun f p =>
          (get_profile_dependencies_in table p).foldl
            (fun g _dep => fun y => if y = p then g y + 1 else g y) f) f) x
        = f x + (all.count x) * ((get_profile_dependencies_in table x).length : Int) := by
  intro all
  induction all with
  | nil => intro f x; simp
  | cons p ps ih =>
    intro f x
    rw [List.foldl_cons, ih, indeg_inner_fold]
    rw [List.count_cons]
    by_cases hx : x = p
    · subst hx
      simp
      ring
    · have hpx : ¬p = x := fun h => hx h.symm
      simp [hx, hpx]

/-- On a duplicate-free node list the Python in-degree map assigns each node
the length of its dependency list, and `0` off the list. -/
theorem build_in_degree_spec (table : DepTable) (all : List String) (hnd : all.Nodup) :
    ∀ x, build_in_degree_in table all x =
      if x ∈ all then ((get_profile_dependencies_in table x).length : Int) else 0 := by
  intro x
  unfold build_in_degree_in
  rw [build_in_degree_count]
  by_cases hx : x ∈ all
  · rw [List.count_eq_one_of_mem hnd hx]
    simp [hx]
  · rw [List.count_eq_zero_of_not_mem hx]
    simp [hx]

theorem adj_inner_fold (deps : List String) (p : String) :
    ∀ (f : String → List String) (x : String),
      (deps.foldl (fun g dep => fun y => if y = dep then g y ++ [p] else g y) f) x
        = f x ++ List.replicate (deps.count x) p := by
  induction deps with
  | nil => intro f x; simp
  | cons d ds ih =>
    intro f x
    rw [List.foldl_cons, ih]
    rw [List.count_cons]
    by_cases hx : x = d
    · subst hx
      simp [List.replicate_succ]
    · simp [hx]
      intro h
      exact absurd h.symm hx

theorem build_adj_list_eq (table : DepTable) :
    ∀ (all : List String) (f : String → List String) (x : String),
      (all.foldl
        (fun f p =>
          (get_profile_dependencies_in table p).foldl
            (fun g dep => fun y => if y = dep then g y ++ [p] else g y) f) f) x
        = f x ++ (all.map
            (fun q => List.replicate ((get_profile_dependencies_in table q).count x) q)).flatten := by
  intro all
  induction all with
  | nil => intro f x; simp
  | cons p ps ih =>
    intro f x
    rw [List.foldl_cons, ih, adj_inner_fold]
    simp [List.append_assoc]

/-- The Python adjacency map lists, under each node `x`, the profiles of
`all` that depend on `x`, with dependency-list multiplicity. -/
theorem build_adj_list_spec (table : DepTable) (all : List String) :
    ∀ x, build_adj_list_in table all x
      = (all.map
          (fun q => List.replicate ((get_profile_dependencies_in table q).count x) q)).flatten := by
  intro x
  unfold build_adj_list_in
  rw [build_adj_list_eq]
  simp

theorem mem_build_adj_list (table : DepTable) (all : List String) (x q : String) :
    q ∈ build_adj_list_in table all x ↔
      q ∈ all ∧ x ∈ get_profile_dependencies_in table q := by
  rw [build_adj_list_spec, List.mem_flatten]
  constructor
  · rintro ⟨l, hl, hql⟩
    rw [List.mem_map] at hl
    obtain ⟨q', hq', rfl⟩ := hl
    obtain ⟨hne, heq⟩ := List.mem_replicate.1 hql
    subst heq
    have hpos : 0 < (get_profile_dependencies_in table q).count x := by omega
    exact ⟨hq', List.count_pos_iff.1 hpos⟩
  · rintro ⟨hq, hx⟩
    refine ⟨List.replicate ((get_profile_dependencies_in table q).count x) q,
      List.mem_map_of_mem _ hq, ?_⟩
    rw [List.mem_replicate]
    have := List.count_pos_iff.2 hx
    exact ⟨by omega, rfl⟩

theorem count_build_adj_list (table : DepTable) (all : List String) (x q : String) :
    (build_adj_list_in table all x).count q
      = (all.count q) * ((get_profile_dependencies_in table q).count x) := by
  rw [build_adj_list_spec]
  induction all with
  | nil => simp
  | cons p ps ih =>
    simp only [List.map_cons, List.flatten_cons, List.count_append, ih, List.count_cons]
    rw [List.count_replicate]
    by_cases hqp : q = p
    · subst hqp
      simp
      ring
    · have hpq : ¬p = q := fun h => hqp h.symm
      simp [hqp, hpq]

/-! ### Kahn loop: lemmas -/

/-- A list is topologically ordered when every element's direct dependencies
occur strictly before it. -/
def topoOK (table : DepTable) (l : List String) : Prop :=
  ∀ n p, l.get? n = some p → ∀ d ∈ get_profile_dependencies_in table p, d ∈ l.take n

theorem topo_append {table : DepTable} {sorted : List String} {p : String}
    (h : topoOK table sorted)
    (hdeps : ∀ d ∈ get_profile_dependencies_in table p, d ∈ sorted) :
    topoOK table (sorted ++ [p]) := by
  intro n q hq d hd
  rcases Nat.lt_trichotomy n sorted.length with hlt | heq | hgt
  · rw [List.get?_append hlt] at hq
    have := h n q hq d hd
    rw [List.take_append_of_le_length (Nat.le_of_lt hlt)]
    exact this
  · subst heq
    rw [List.get?_append_right (Nat.le_refl _), Nat.sub_self] at hq
    simp only [List.get?_cons_zero, Option.some.injEq] at hq
    subst hq
    rw [List.take_append_of_le_length (Nat.le_refl _)]
    simpa using hdeps d hd
  · rw [List.get?_append_right (Nat.le_of_lt hgt)] at hq
    have : n - sorted.length ≥ 1 := by omega
    rw [List.get?_eq_none.2 (by simpa using this)] at hq
    exact absurd hq (by simp)

theorem kahn_step_spec :
    ∀ (L : List String) (g : String → Int) (q0 : List String),
      ∃ δ, kahn_step L (g, q0) = (fun x => g x - L.count x, q0 ++ δ) ∧
        δ.Nodup ∧
        ∀ x, x ∈ δ ↔ 1 ≤ g x ∧ g x ≤ (L.count x : Int) := by
  intro L
  induction L with
  | nil =>
    intro g q0
    refine ⟨[], ?_, List.nodup_nil, ?_⟩
    · have hfun : (fun x => g x - ([] : List String).count x) = g := by
        funext x
        simp
      rw [hfun]
      simp [kahn_step]
    · intro x
      simp
      omega
  | cons d L ih =>
    intro g q0
    have hstep1 : kahn_step (d :: L) (g, q0) =
        kahn_step L ((fun x => if x = d then g d - 1 else g x),
          q0 ++ (if g d - 1 = 0 then [d] else [])) := by
      by_cases hgd : g d - 1 = 0
      · simp [kahn_step, List.foldl_cons, hgd]
      · simp [kahn_step, List.foldl_cons, hgd]
    obtain ⟨δ, h1, h2, h3⟩ := ih (fun x => if x = d then g d - 1 else g x)
      (q0 ++ (if g d - 1 = 0 then [d] else []))
    refine ⟨(if g d - 1 = 0 then [d] else []) ++ δ, ?_, ?_, ?_⟩
    · rw [hstep1, h1]
      refine Prod.ext ?_ ?_
      · funext x
        simp only
        by_cases hx : x = d
        · subst hx
          simp [List.count_cons]
          omega
        · simp [List.count_cons, hx]
      · simp [List.append_assoc]
    · by_cases hgd : g d - 1 = 0
      · simp only [hgd, if_true]
        refine List.Nodup.cons ?_ h2
        intro hdm
        have hd := (h3 d).1 hdm
        simp at hd
        omega
      · simpa [hgd] using h2
    · intro x
      constructor
      · intro hx
        rcases List.mem_append.1 hx with h | h
        · by_cases hgd : g d - 1 = 0
          · rw [if_pos hgd, List.mem_singleton] at h
            subst h
            have hc : (0 : Int) ≤ (L.count x : Int) := Int.ofNat_nonneg _
            simp [List.count_cons]
            omega
          · rw [if_neg hgd] at h
            simp at h
        · have hmem := (h3 x).1 h
          by_cases hxd : x = d
          · subst hxd
            simp at hmem
            simp [List.count_cons]
            omega
          · have hdx : ¬d = x := fun h => hxd h.symm
            simp [hxd] at hmem
            simp [List.count_cons, hxd, hdx]
            omega
      · rintro ⟨ha, hb⟩
        by_cases hxd : x = d
        · subst hxd
          rw [List.count_cons] at hb
          simp at hb
          by_cases hgd : g x - 1 = 0
          · refine List.mem_append.2 (Or.inl ?_)
            rw [if_pos hgd]
            simp
          · refine List.mem_append.2 (Or.inr ((h3 x).2 ?_))
            simp
            omega
        · have hdx : ¬d = x := fun h => hxd h.symm
          rw [List.count_cons] at hb
          simp [hxd, hdx] at hb
          refine List.mem_append.2 (Or.inr ((h3 x).2 ?_))
          simp [hxd]
          omega

theorem count_cons_eq (a b : String) (l : List String) :
    (b :: l).count a = l.count a + if b = a then 1 else 0 := by
  rw [List.count_cons]
  simp

theorem filter_append_one {s : List String} {p : String} (hp : p ∉ s) :
    ∀ l : List String, (l.filter (fun d => d ∉ s)).length
      = (l.filter (fun d => d ∉ s ++ [p])).length + l.count p := by
  intro l
  induction l with
  | nil => simp
  | cons a l ih =>
    rw [List.filter_cons, List.filter_cons, count_cons_eq]
    by_cases hap : a = p
    · subst hap
      have h1 : (decide (a ∉ s)) = true := by simpa using hp
      have h2 : (decide (a ∉ s ++ [a])) = false := by simp
      rw [h1, h2, if_pos rfl]
      simp only [Bool.false_eq_true, if_false, if_true, List.length_cons]
      omega
    · rw [if_neg hap]
      have hsame : (decide (a ∉ s ++ [p])) = (decide (a ∉ s)) := by simp [hap]
      rw [hsame]
      by_cases has : a ∈ s
      · have h0 : (decide (a ∉ s)) = false := by simpa using has
        rw [h0]
        simp only [Bool.false_eq_true, if_false]
        omega
      · have h1 : (decide (a ∉ s)) = true := by simpa using has
        rw [h1]
        simp only [if_true, List.length_cons]
        omega

theorem count_le_filter_length {s : List String} {p : String} (hp : p ∉ s) :
    ∀ l : List String, l.count p ≤ (l.filter (fun d => d ∉ s)).length := by
  intro l
  induction l with
  | nil => simp
  | cons a l ih =>
    rw [List.filter_cons, count_cons_eq]
    by_cases hap : a = p
    · subst hap
      have h1 : (decide (a ∉ s)) = true := by simpa using hp
      rw [h1, if_pos rfl]
      simp only [if_true, List.length_cons]
      omega
    · rw [if_neg hap]
      by_cases has : a ∈ s
      · have h0 : (decide (a ∉ s)) = false := by simpa using has
        rw [h0]
        simp only [Bool.false_eq_true, if_false]
        omega
      · have h1 : (decide (a ∉ s)) = true := by simpa using has
        rw [h1]
        simp only [if_true, List.length_cons]
        omega

theorem eq_of_filter_le_count {s : List String} {p : String} (hp : p ∉ s) :
    ∀ l : List String, (l.filter (fun d => d ∉ s)).length ≤ l.count p →
      ∀ d ∈ l, d ∉ s → d = p := by
  intro l
  induction l with
  | nil =>
    intro _ d hd
    simp at hd
  | cons a l ih =>
    intro hle d hd hds
    rw [List.filter_cons, count_cons_eq] at hle
    by_cases hap : a = p
    · subst hap
      have h1 : (decide (a ∉ s)) = true := by simpa using hp
      rw [h1, if_pos rfl] at hle
      simp only [if_true, List.length_cons] at hle
      rcases List.mem_cons.1 hd with rfl | hd2
      · rfl
      · exact ih (by omega) d hd2 hds
    · rw [if_neg hap] at hle
      by_cases has : a ∈ s
      · have h0 : (decide (a ∉ s)) = false := by simpa using has
        rw [h0] at hle
        simp only [Bool.false_eq_true, if_false] at hle
        rcases List.mem_cons.1 hd with rfl | hd2
        · exact absurd has hds
        · exact ih (by omega) d hd2 hds
      · have h1 : (decide (a ∉ s)) = true := by simpa using has
        rw [h1] at hle
        simp only [if_true, List.length_cons] at hle
        have := count_le_filter_length hp l
        omega

/-- Main specification of the Kahn loop: under the loop invariants it
terminates within `all.length - sorted.length` steps, its output is a
duplicate-free topologically ordered subset of `all`, and every node of
`all` whose dependencies all made it into the output is itself in the
output (so only cycle members can be missing). -/
theorem kahn_loop_spec (table : DepTable) (all : List String)
    (hall : all.Nodup) :
    ∀ fuel (indeg : String → Int) (queue sorted : List String),
      queue.Nodup → (∀ x ∈ queue, x ∈ all) →
      sorted.Nodup → (∀ x ∈ sorted, x ∈ all) →
      (∀ x ∈ queue, x ∉ sorted) →
      (∀ p ∈ queue, ∀ d ∈ get_profile_dependencies_in table p, d ∈ sorted) →
      topoOK table sorted →
      (∀ q ∈ all, indeg q =
        (((get_profile_dependencies_in table q).filter (fun d => d ∉ sorted)).length : Int)) →
      (∀ q ∈ all, indeg q = 0 → q ∈ sorted ∨ q ∈ queue) →
      all.length ≤ fuel + sorted.length →
      ∃ out, kahn_loop (build_adj_list_in table all) fuel indeg queue sorted = some out ∧
        out.Nodup ∧ (∀ x ∈ out, x ∈ all) ∧ (∀ x ∈ sorted, x ∈ out) ∧
        topoOK table out ∧
        (∀ q ∈ all, (∀ d ∈ get_profile_dependencies_in table q, d ∈ out) → q ∈ out) := by
  intro fuel
  induction fuel with
  | zero =>
    intro indeg queue sorted hqnd hqa hsnd hsa hdisj hqdeps htopo hindeg hzero hfuel
    cases queue with
    | nil =>
      rw [kahn_loop]
      refine ⟨sorted, rfl, hsnd, hsa, fun x h => h, htopo, ?_⟩
      intro q hq hdeps
      have h0 : indeg q = 0 := by
        rw [hindeg q hq]
        have hnil : (get_profile_dependencies_in table q).filter (fun d => d ∉ sorted) = [] := by
          rw [List.filter_eq_nil_iff]
          intro d hd
          simp [hdeps d hd]
        rw [hnil]
        simp
      rcases hzero q hq h0 with h | h
      · exact h
      · simp at h
    | cons p rest =>
      exfalso
      have hnd2 : (sorted ++ p :: rest).Nodup :=
        List.Nodup.append hsnd hqnd (fun x hx1 hx2 => hdisj x hx2 hx1)
      have hsub : (sorted ++ p :: rest) ⊆ all := by
        intro x hx
        rcases List.mem_append.1 hx with h | h
        · exact hsa x h
        · exact hqa x h
      have := (List.subperm_of_subset hnd2 hsub).length_le
      simp only [List.length_append, List.length_cons] at this
      omega
  | succ fuel ih =>
    intro indeg queue sorted hqnd hqa hsnd hsa hdisj hqdeps htopo hindeg hzero hfuel
    cases queue with
    | nil =>
      rw [kahn_loop]
      refine ⟨sorted, rfl, hsnd, hsa, fun x h => h, htopo, ?_⟩
      intro q hq hdeps
      have h0 : indeg q = 0 := by
        rw [hindeg q hq]
        have hnil : (get_profile_dependencies_in table q).filter (fun d => d ∉ sorted) = [] := by
          rw [List.filter_eq_nil_iff]
          intro d hd
          simp [hdeps d hd]
        rw [hnil]
        simp
      rcases hzero q hq h0 with h | h
      · exact h
      · simp at h
    | cons p rest =>
      obtain ⟨δ, hstep, hδnd, hδiff⟩ :=
        kahn_step_spec (build_adj_list_in table all p) indeg rest
      have hp_all : p ∈ all := hqa p (List.mem_cons_self _ _)
      have hp_ns : p ∉ sorted := hdisj p (List.mem_cons_self _ _)
      have hdeps_p : ∀ d ∈ get_profile_dependencies_in table p, d ∈ sorted :=
        hqdeps p (List.mem_cons_self _ _)
      have hp_rest : p ∉ rest := (List.nodup_cons.1 hqnd).1
      have hrest_nd : rest.Nodup := (List.nodup_cons.1 hqnd).2
      have hcount : ∀ q, ((build_adj_list_in table all p).count q)
          = if q ∈ all then (get_profile_dependencies_in table q).count p else 0 := by
        intro q
        rw [count_build_adj_list]
        by_cases hq : q ∈ all
        · rw [List.count_eq_one_of_mem hall hq]
          simp [hq]
        · rw [List.count_eq_zero_of_not_mem hq]
          simp [hq]
      have hindeg_p : indeg p = 0 := by
        rw [hindeg p hp_all]
        have hnil : (get_profile_dependencies_in table p).filter (fun d => d ∉ sorted) = [] := by
          rw [List.filter_eq_nil_iff]
          intro d hd
          simp [hdeps_p d hd]
        rw [hnil]
        simp
      have hδall : ∀ x ∈ δ, x ∈ all := by
        intro x hx
        obtain ⟨h1, h2⟩ := (hδiff x).1 hx
        by_contra hxa
        rw [hcount x, if_neg hxa] at h2
        omega
      have hδdeps : ∀ x ∈ δ, ∀ d ∈ get_profile_dependencies_in table x,
          d ∈ sorted ++ [p] := by
        intro x hx d hd
        obtain ⟨h1, h2⟩ := (hδiff x).1 hx
        rw [hcount x, if_pos (hδall x hx)] at h2
        rw [hindeg x (hδall x hx)] at h2
        have hle : ((get_profile_dependencies_in table x).filter
            (fun d => d ∉ sorted)).length ≤ (get_profile_dependencies_in table x).count p := by
          exact_mod_cast h2
        by_cases hds : d ∈ sorted
        · exact List.mem_append_left _ hds
        · have := eq_of_filter_le_count hp_ns _ hle d hd hds
          subst this
          simp
      have hδ_ns : ∀ x ∈ δ, x ∉ sorted := by
        intro x hx hxs
        obtain ⟨h1, h2⟩ := (hδiff x).1 hx
        obtain ⟨n, hn⟩ := List.mem_iff_get?.1 hxs
        rw [hindeg x (hδall x hx)] at h1
        have hpos : 0 < ((get_profile_dependencies_in table x).filter
            (fun d => d ∉ sorted)).length := by
          exact_mod_cast h1
        rw [List.length_pos_iff_exists_mem] at hpos
        obtain ⟨d, hd⟩ := hpos
        rw [List.mem_filter] at hd
        have hds : d ∉ sorted := by simpa using hd.2
        exact hds (List.take_subset n sorted (htopo n x hn d hd.1))
      have hδ_nr : ∀ x ∈ δ, x ∉ rest := by
        intro x hx hxr
        have := hqdeps x (List.mem_cons_of_mem _ hxr)
        obtain ⟨h1, h2⟩ := (hδiff x).1 hx
        rw [hindeg x (hδall x hx)] at h1
        have hpos : 0 < ((get_profile_dependencies_in table x).filter
            (fun d => d ∉ sorted)).length := by
          exact_mod_cast h1
        rw [List.length_pos_iff_exists_mem] at hpos
        obtain ⟨d, hd⟩ := hpos
        rw [List.mem_filter] at hd
        have hds : d ∉ sorted := by simpa using hd.2
        exact hds (this d hd.1)
      have hδ_np : ∀ x ∈ δ, x ≠ p := by
        intro x hx hxp
        subst hxp
        obtain ⟨h1, _⟩ := (hδiff x).1 hx
        omega
      -- invariants for the recursive call
      have hqnd' : (rest ++ δ).Nodup :=
        List.Nodup.append hrest_nd hδnd (fun x hx1 hx2 => hδ_nr x hx2 hx1)
      have hqa' : ∀ x ∈ rest ++ δ, x ∈ all := by
        intro x hx
        rcases List.mem_append.1 hx with h | h
        · exact hqa x (List.mem_cons_of_mem _ h)
        · exact hδall x h
      have hsnd' : (sorted ++ [p]).Nodup := by
        refine List.Nodup.append hsnd (List.nodup_singleton p) ?_
        intro x hx1 hx2
        rw [List.mem_singleton] at hx2
        subst hx2
        exact hp_ns hx1
      have hsa' : ∀ x ∈ sorted ++ [p], x ∈ all := by
        intro x hx
        rcases List.mem_append.1 hx with h | h
        · exact hsa x h
        · rw [List.mem_singleton] at h
          subst h
          exact hp_all
      have hdisj' : ∀ x ∈ rest ++ δ, x ∉ sorted ++ [p] := by
        intro x hx hxs
        rcases List.mem_append.1 hxs with hs | hs
        · rcases List.mem_append.1 hx with h | h
          · exact hdisj x (List.mem_cons_of_mem _ h) hs
          · exact hδ_ns x h hs
        · rw [List.mem_singleton] at hs
          subst hs
          rcases List.mem_append.1 hx with h | h
          · exact hp_rest h
          · exact hδ_np x h rfl
      have hqdeps' : ∀ q ∈ rest ++ δ, ∀ d ∈ get_profile_dependencies_in table q,
          d ∈ sorted ++ [p] := by
        intro q hq d hd
        rcases List.mem_append.1 hq with h | h
        · exact List.mem_append_left _ (hqdeps q (List.mem_cons_of_mem _ h) d hd)
        · exact hδdeps q h d hd
      have htopo' : topoOK table (sorted ++ [p]) := topo_append htopo hdeps_p
      have hindeg' : ∀ q ∈ all,
          indeg q - ((build_adj_list_in table all p).count q : Int) =
          (((get_profile_dependencies_in table q).filter
            (fun d => d ∉ sorted ++ [p])).length : Int) := by
        intro q hq
        rw [hcount q, if_pos hq, hindeg q hq]
        have := filter_append_one hp_ns (get_profile_dependencies_in table q)
        push_cast [this]
        omega
      have hzero' : ∀ q ∈ all,
          indeg q - ((build_adj_list_in table all p).count q : Int) = 0 →
          q ∈ sorted ++ [p] ∨ q ∈ rest ++ δ := by
        intro q hq h0
        rw [hcount q, if_pos hq] at h0
        by_cases hcnt : (get_profile_dependencies_in table q).count p = 0
        · rw [hcnt] at h0
          simp only [Nat.cast_zero, sub_zero] at h0
          rcases hzero q hq h0 with h | h
          · exact Or.inl (List.mem_append_left _ h)
          · rcases List.mem_cons.1 h with rfl | h2
            · exact Or.inl (List.mem_append_right _ (List.mem_singleton.2 rfl))
            · exact Or.inr (List.mem_append_left _ h2)
        · refine Or.inr (List.mem_append_right _ ((hδiff q).2 ?_))
          rw [hcount q, if_pos hq]
          constructor
          · omega
          · omega
      have hfuel' : all.length ≤ fuel + (sorted ++ [p]).length := by
        rw [List.length_append, List.length_singleton]
        omega
      obtain ⟨out, hloop, hond, hoa, hos, hot, hoc⟩ :=
        ih (fun x => indeg x - ((build_adj_list_in table all p).count x : Int))
          (rest ++ δ) (sorted ++ [p]) hqnd' hqa' hsnd' hsa' hdisj' hqdeps' htopo'
          hindeg' hzero' hfuel'
      refine ⟨out, ?_, hond, hoa,
        (fun x hx => hos x (List.mem_append_left _ hx)), hot, hoc⟩
      rw [kahn_loop, hstep]
      exact hloop

/-! ### Resolver: main correctness theorem against the real registry -/

/-- On any request whose names are all registry profiles, the resolver
succeeds and returns a duplicate-free topological order whose underlying set
is exactly the transitive dependency closure of the meta-expanded input and
which contains no meta profile. -/
theorem resolve_spec (profiles : List String)
    (hvalid : ∀ p ∈ profiles, validate_profile_name p = true) :
    ∃ E order,
      expand_meta_profiles profiles = some (Except.ok E) ∧
      resolve_profile_dependencies profiles = some (Except.ok order) ∧
      order.Nodup ∧
      topoOK PROFILE_DEPENDENCIES order ∧
      (∀ x, x ∈ order ↔ Reach PROFILE_DEPENDENCIES E x) ∧
      (∀ x ∈ order, is_meta_profile x = false) := by
  obtain ⟨E, hE⟩ := expand_ok_of_valid PROFILE_DEPENDENCIES reg_dep_valid reg_dep_nonmeta
    profiles hvalid 6
  have hE' : expand_meta_profiles profiles = some (Except.ok E) := hE
  obtain ⟨hEnd, hEprops⟩ := expand_spec PROFILE_DEPENDENCIES EXPAND_FUEL profiles E hE'
  -- closure loop
  have hdedup_le : ((deps_universe PROFILE_DEPENDENCIES).filter
      (fun x => x ∉ E)).length ≤
      ((PROFILE_DEPENDENCIES.map (fun kv => kv.2)).flatten).length := by
    calc ((deps_universe PROFILE_DEPENDENCIES).filter (fun x => x ∉ E)).length
        ≤ (deps_universe PROFILE_DEPENDENCIES).length := List.length_filter_le _ _
      _ ≤ ((PROFILE_DEPENDENCIES.map (fun kv => kv.2)).flatten).length :=
          (List.dedup_sublist _).length_le
  obtain ⟨r, hcoll, hrnd, hEr, hclr, hreach⟩ :=
    collect_spec PROFILE_DEPENDENCIES E
      (E.length + ((PROFILE_DEPENDENCIES.map (fun kv => kv.2)).flatten).length)
      E E hEnd (fun x h => h) (fun p hp hnq d _ => absurd hp hnq)
      (fun x hx => Reach.base hx) (by omega)
  have hrvn : ∀ x ∈ r, validate_profile_name x = true ∧ is_meta_profile x = false := by
    intro x hx
    have hre := hreach x hx
    induction hre with
    | base h => exact hEprops _ h
    | step _ hd _ => exact ⟨reg_dep_valid _ _ hd, reg_dep_nonmeta _ _ hd⟩
  -- Kahn loop
  have hindeg0 := build_in_degree_spec PROFILE_DEPENDENCIES r hrnd
  have hqdeps0 : ∀ p ∈ r.filter (fun p => build_in_degree_in PROFILE_DEPENDENCIES r p = 0),
      ∀ d ∈ get_profile_dependencies_in PROFILE_DEPENDENCIES p, d ∈ ([] : List String) := by
    intro p hp d hd
    rw [List.mem_filter] at hp
    have h0 : build_in_degree_in PROFILE_DEPENDENCIES r p = 0 := by
      have := hp.2
      simpa using this
    rw [hindeg0 p, if_pos hp.1] at h0
    have : (get_profile_dependencies_in PROFILE_DEPENDENCIES p).length = 0 := by
      exact_mod_cast h0
    rw [List.length_eq_zero] at this
    rw [this] at hd
    simp at hd
  obtain ⟨out, hkahn, hond, hoa, _, hot, hoc⟩ :=
    kahn_loop_spec PROFILE_DEPENDENCIES r hrnd r.length
      (build_in_degree_in PROFILE_DEPENDENCIES r)
      (r.filter (fun p => build_in_degree_in PROFILE_DEPENDENCIES r p = 0)) []
      (hrnd.filter _) (fun x hx => List.mem_of_mem_filter hx)
      List.nodup_nil (fun x hx => by simp at hx)
      (fun x _ hx => by simp at hx)
      hqdeps0
      (fun n p hn => by simp at hn)
      (fun q hq => by
        rw [hindeg0 q, if_pos hq]
        have hfil : (get_profile_dependencies_in PROFILE_DEPENDENCIES q).filter
            (fun d => d ∉ ([] : List String)) =
            get_profile_dependencies_in PROFILE_DEPENDENCIES q := by
          apply List.filter_eq_self.2
          intro d _
          simp
        rw [hfil])
      (fun q hq h0 => Or.inr (List.mem_filter.2 ⟨hq, by simpa using h0⟩))
      (by simp)
  -- completeness via the rank function
  have hcomplete : ∀ n, ∀ q ∈ r, profileRank q < n → q ∈ out := by
    intro n
    induction n with
    | zero => intro q _ h; omega
    | succ n ihn =>
      intro q hq hlt
      apply hoc q hq
      intro d hd
      have hrank := reg_rank_lt q d hd
      exact ihn d (hclr q hq d hd) (by omega)
  have hr_out : ∀ q ∈ r, q ∈ out :=
    fun q hq => hcomplete (profileRank q + 1) q hq (Nat.lt_succ_self _)
  have hsets : ∀ x, x ∈ out ↔ x ∈ r := fun x => ⟨hoa x, hr_out x⟩
  have hperm : out.Perm r := (List.perm_ext_iff_of_nodup hond hrnd).2 hsets
  have hlen : out.length = r.length := hperm.length_eq
  refine ⟨E, out, hE', ?_, hond, hot, ?_, ?_⟩
  · show resolve_profile_dependencies_in PROFILE_DEPENDENCIES profiles = some (Except.ok out)
    have hE2 : expand_meta_profiles_in PROFILE_DEPENDENCIES EXPAND_FUEL profiles
        = some (Except.ok E) := hE
    unfold resolve_profile_dependencies_in
    rw [hE2]
    simp only [hcoll, hkahn, hlen]
    simp
  · intro x
    constructor
    · intro hx
      exact hreach x (hoa x hx)
    · intro hx
      exact hr_out _ (reach_mem_of_closed hEr hclr x hx)
  · intro x hx
    exact (hrvn x (hoa x hx)).2

/-! ### Execution planner: parallel-group partition -/

theorem exists_min_rank : ∀ (l : List String), l ≠ [] →
    ∃ p ∈ l, ∀ q ∈ l, profileRank p ≤ profileRank q := by
  intro l
  induction l with
  | nil => intro h; exact absurd rfl h
  | cons a l ih =>
    intro _
    by_cases hl : l = []
    · subst hl
      refine ⟨a, List.mem_cons_self _ _, ?_⟩
      intro q hq
      rcases List.mem_cons.1 hq with rfl | h
      · exact le_refl _
      · simp at h
    · obtain ⟨p, hp, hmin⟩ := ih hl
      by_cases hc : profileRank a ≤ profileRank p
      · refine ⟨a, List.mem_cons_self _ _, ?_⟩
        intro q hq
        rcases List.mem_cons.1 hq with rfl | h
        · exact le_refl _
        · exact le_trans hc (hmin q h)
      · refine ⟨p, List.mem_cons_of_mem _ hp, ?_⟩
        intro q hq
        rcases List.mem_cons.1 hq with rfl | h
        · omega
        · exact hmin q h

/-- Specification of the planner's parallel-group loop: it terminates, places
every profile of the (dependency-closed) order into exactly one group, and
forms each group only from profiles whose dependencies sit in strictly
earlier groups. -/
theorem parallel_groups_spec (order : List String)
    (hclosed : ∀ p ∈ order, ∀ d ∈ get_profile_dependencies p, d ∈ order) :
    ∀ fuel (groups : List (List String)) (remaining satisfied : List String),
      remaining.Nodup → satisfied.Nodup →
      (∀ x ∈ remaining, x ∈ order) →
      (∀ x ∈ satisfied, x ∈ order) →
      (∀ x ∈ order, x ∈ remaining ∨ x ∈ satisfied) →
      (∀ x ∈ remaining, x ∉ satisfied) →
      satisfied = groups.flatten →
      (∀ i g, groups.get? i = some g → ∀ p ∈ g,
        ∀ d ∈ get_profile_dependencies p, d ∈ (groups.take i).flatten) →
      remaining.length ≤ fuel →
      ∃ gs, parallel_groups_loop fuel groups remaining satisfied = some gs ∧
        (∀ x, x ∈ gs.flatten ↔ x ∈ order) ∧
        gs.flatten.Nodup ∧
        (∀ i g, gs.get? i = some g → ∀ p ∈ g,
          ∀ d ∈ get_profile_dependencies p, d ∈ (gs.take i).flatten) := by
  intro fuel
  induction fuel with
  | zero =>
    intro groups remaining satisfied hrnd hsnd hro hso horder hdisj hsat hgroups hfuel
    cases remaining with
    | nil =>
      rw [parallel_groups_loop]
      refine ⟨groups, rfl, ?_, hsat ▸ hsnd, hgroups⟩
      intro x
      rw [← hsat]
      constructor
      · exact hso x
      · intro hx
        rcases horder x hx with h | h
        · simp at h
        · exact h
    | cons p rest => simp at hfuel
  | succ fuel ih =>
    intro groups remaining satisfied hrnd hsnd hro hso horder hdisj hsat hgroups hfuel
    cases hrem : remaining with
    | nil =>
      rw [parallel_groups_loop]
      refine ⟨groups, rfl, ?_, hsat ▸ hsnd, hgroups⟩
      intro x
      rw [← hsat]
      constructor
      · exact hso x
      · intro hx
        rcases horder x hx with h | h
        · rw [hrem] at h
          simp at h
        · exact h
    | cons p rest =>
      subst hrem
      set can_run := (p :: rest).filter
        (fun q => (get_profile_dependencies q).all (fun dep => satisfied.contains dep))
        with hcan
      -- the loop never gets stuck: a minimal-rank remaining profile is runnable
      obtain ⟨m, hm, hmmin⟩ := exists_min_rank (p :: rest) (by simp)
      have hm_run : m ∈ can_run := by
        rw [hcan, List.mem_filter]
        refine ⟨hm, ?_⟩
        rw [List.all_eq_true]
        intro d hd
        have hdo : d ∈ order := hclosed m (hro m hm) d hd
        rcases horder d hdo with h | h
        · have := reg_rank_lt m d hd
          have := hmmin d h
          omega
        · simpa using h
      have hne : can_run.isEmpty = false := by
        rw [List.isEmpty_eq_false]
        intro hnil
        rw [hnil] at hm_run
        simp at hm_run
      have hcr_sub : ∀ x ∈ can_run, x ∈ p :: rest := by
        intro x hx
        rw [hcan, List.mem_filter] at hx
        exact hx.1
      have hcr_nd : can_run.Nodup := hrnd.filter _
      -- invariants for the recursive call
      have hrnd' : ((p :: rest).filter (fun q => !(can_run.contains q))).Nodup :=
        hrnd.filter _
      have hsnd' : (satisfied ++ can_run).Nodup := by
        refine List.Nodup.append hsnd hcr_nd ?_
        intro x hx1 hx2
        exact hdisj x (hcr_sub x hx2) hx1
      have hro' : ∀ x ∈ (p :: rest).filter (fun q => !(can_run.contains q)), x ∈ order := by
        intro x hx
        exact hro x (List.mem_of_mem_filter hx)
      have hso' : ∀ x ∈ satisfied ++ can_run, x ∈ order := by
        intro x hx
        rcases List.mem_append.1 hx with h | h
        · exact hso x h
        · exact hro x (hcr_sub x h)
      have horder' : ∀ x ∈ order,
          x ∈ (p :: rest).filter (fun q => !(can_run.contains q)) ∨
          x ∈ satisfied ++ can_run := by
        intro x hx
        rcases horder x hx with h | h
        · by_cases hc : x ∈ can_run
          · exact Or.inr (List.mem_append_right _ hc)
          · refine Or.inl (List.mem_filter.2 ⟨h, ?_⟩)
            simpa using hc
        · exact Or.inr (List.mem_append_left _ h)
      have hdisj' : ∀ x ∈ (p :: rest).filter (fun q => !(can_run.contains q)),
          x ∉ satisfied ++ can_run := by
        intro x hx hxs
        rw [List.mem_filter] at hx
        rcases List.mem_append.1 hxs with h | h
        · exact hdisj x hx.1 h
        · have := hx.2
          simp [h] at this
      have hsat' : satisfied ++ can_run = (groups ++ [can_run]).flatten := by
        rw [List.flatten_append, hsat]
        simp
      have hgroups' : ∀ i g, (groups ++ [can_run]).get? i = some g → ∀ q ∈ g,
          ∀ d ∈ get_profile_dependencies q, d ∈ ((groups ++ [can_run]).take i).flatten := by
        intro i g hg q hq d hd
        rcases Nat.lt_trichotomy i groups.length with hlt | heq | hgt
        · rw [List.get?_append hlt] at hg
          rw [List.take_append_of_le_length (Nat.le_of_lt hlt)]
          exact hgroups i g hg q hq d hd
        · subst heq
          rw [List.get?_append_right (Nat.le_refl _), Nat.sub_self] at hg
          simp only [List.get?_cons_zero, Option.some.injEq] at hg
          subst hg
          rw [List.take_append_of_le_length (Nat.le_refl _)]
          simp only [List.take_length]
          rw [← hsat]
          rw [List.mem_filter] at hq
          have hall := hq.2
          rw [List.all_eq_true] at hall
          have := hall d hd
          simpa using this
        · rw [List.get?_append_right (Nat.le_of_lt hgt)] at hg
          have h1 : i - groups.length ≥ 1 := by omega
          rw [List.get?_eq_none.2 (by simpa using h1)] at hg
          exact absurd hg (by simp)
      have hfuel' : ((p :: rest).filter (fun q => !(can_run.contains q))).length ≤ fuel := by
        have hlt : ((p :: rest).filter (fun q => !(can_run.contains q))).length
            < (p :: rest).length := by
          rw [List.length_filter_lt_length_iff_exists]
          refine ⟨m, hm, ?_⟩
          simp [hm_run]
        simp only [List.length_cons] at hlt hfuel
        omega
      obtain ⟨gs, hloop, hset, hnd, hprop⟩ := ih (groups ++ [can_run])
        ((p :: rest).filter (fun q => !(can_run.contains q)))
        (satisfied ++ can_run) hrnd' hsnd' hro' hso' horder' hdisj' hsat' hgroups' hfuel'
      refine ⟨gs, ?_, hset, hnd, hprop⟩
      rw [parallel_groups_loop]
      rw [← hcan]
      rw [hne]
      simp only [Bool.false_eq_true, if_false]
      exact hloop

theorem topo_flatten_aux : ∀ (gs : List (List String)) (pre : List String),
    (∀ i g, gs.get? i = some g → ∀ p ∈ g, ∀ d ∈ get_profile_dependencies p,
      d ∈ pre ++ (gs.take i).flatten) →
    ∀ n p, gs.flatten.get? n = some p → ∀ d ∈ get_profile_dependencies p,
      d ∈ pre ++ gs.flatten.take n := by
  intro gs
  induction gs with
  | nil =>
    intro pre _ n p hn
    simp at hn
  | cons g gs ih =>
    intro pre h n p hn d hd
    rw [List.flatten_cons] at hn ⊢
    by_cases hlt : n < g.length
    · rw [List.get?_append hlt] at hn
      have hp : p ∈ g := List.get?_mem hn
      have hpre := h 0 g rfl p hp d hd
      simp only [List.take_zero, List.flatten_nil, List.append_nil] at hpre
      exact List.mem_append_left _ hpre
    · push_neg at hlt
      rw [List.get?_append_right hlt] at hn
      have h' : ∀ i g', gs.get? i = some g' → ∀ q ∈ g', ∀ d ∈ get_profile_dependencies q,
          d ∈ (pre ++ g) ++ (gs.take i).flatten := by
        intro i g' hg q hq d2 hd2
        have := h (i + 1) g' (by simpa using hg) q hq d2 hd2
        simpa [List.take_succ_cons, List.append_assoc] using this
      have hrec := ih (pre ++ g) h' (n - g.length) p hn d hd
      rw [List.take_append_eq_append_take, List.take_of_length_le hlt, ← List.append_assoc]
      exact hrec

/-! ### Claim theorems: resolver (C1, C5, C7, C6) -/

/-- C1: for every requested-profile list whose names are all known (the
registry graph itself is cycle-free, witnessed by the rank function),
`resolve_profile_dependencies` succeeds with an order in which every profile
appears strictly after all of its direct dependencies, whose underlying set
equals the transitive dependency closure (`Reach`) of the meta-expanded
input, and which contains no meta-profile name. -/
theorem C1_resolve_topo_closure_no_meta (profiles : List String)
    (hvalid : ∀ p ∈ profiles, validate_profile_name p = true) :
    ∃ E order,
      expand_meta_profiles profiles = some (Except.ok E) ∧
      resolve_profile_dependencies profiles = some (Except.ok order) ∧
      (∀ n p, order.get? n = some p →
        ∀ d ∈ get_profile_dependencies p, d ∈ order.take n) ∧
      (∀ x, x ∈ order ↔ Reach PROFILE_DEPENDENCIES E x) ∧
      (∀ x ∈ order, is_meta_profile x = false) := by
  obtain ⟨E, order, h1, h2, _, h4, h5, h6⟩ := resolve_spec profiles hvalid
  exact ⟨E, order, h1, h2, h4, h5, h6⟩

theorem C1_resolve_topo_closure_no_meta_witness :
    (∀ p ∈ ["standard"], validate_profile_name p = true) ∧
    (∃ E order,
      expand_meta_profiles ["standard"] = some (Except.ok E) ∧
      resolve_profile_dependencies ["standard"] = some (Except.ok order) ∧
      (∀ n p, order.get? n = some p →
        ∀ d ∈ get_profile_dependencies p, d ∈ order.take n) ∧
      (∀ x, x ∈ order ↔ Reach PROFILE_DEPENDENCIES E x) ∧
      (∀ x ∈ order, is_meta_profile x = false)) :=
  ⟨by decide, C1_resolve_topo_closure_no_meta ["standard"] (by decide)⟩

/-- The whole resolver pipeline terminates whenever meta expansion does, on
any dependency table; the result is the circular-dependency error naming the
unvisited nodes when Kahn's output is shorter than the closure, and the
sorted order otherwise. -/
theorem resolve_pipeline_spec (table : DepTable) (profiles expanded : List String)
    (hexp : expand_meta_profiles_in table EXPAND_FUEL profiles = some (Except.ok expanded)) :
    ∃ all sorted,
      collect_all_profiles_in table
        (expanded.length + ((table.map (fun kv => kv.2)).flatten).length)
        expanded expanded = some all ∧
      kahn_loop (build_adj_list_in table all) all.length
        (build_in_degree_in table all)
        (all.filter (fun p => build_in_degree_in table all p = 0)) [] = some sorted ∧
      resolve_profile_dependencies_in table profiles =
        some (if sorted.length ≠ all.length then
          Except.error (ProfileErr.circularDependency
            (all.filter (fun p => !(sorted.contains p))))
        else Except.ok sorted) := by
  obtain ⟨hEnd, _⟩ := expand_spec table EXPAND_FUEL profiles expanded hexp
  have hdedup_le : ((deps_universe table).filter (fun x => x ∉ expanded)).length ≤
      ((table.map (fun kv => kv.2)).flatten).length := by
    calc ((deps_universe table).filter (fun x => x ∉ expanded)).length
        ≤ (deps_universe table).length := List.length_filter_le _ _
      _ ≤ ((table.map (fun kv => kv.2)).flatten).length := (List.dedup_sublist _).length_le
  obtain ⟨all, hcoll, hallnd, _, _, _⟩ :=
    collect_spec table expanded
      (expanded.length + ((table.map (fun kv => kv.2)).flatten).length)
      expanded expanded hEnd (fun x h => h) (fun p hp hnq d _ => absurd hp hnq)
      (fun x hx => Reach.base hx) (by omega)
  have hindeg0 := build_in_degree_spec table all hallnd
  have hqdeps0 : ∀ p ∈ all.filter (fun p => build_in_degree_in table all p = 0),
      ∀ d ∈ get_profile_dependencies_in table p, d ∈ ([] : List String) := by
    intro p hp d hd
    rw [List.mem_filter] at hp
    have h0 : build_in_degree_in table all p = 0 := by
      have := hp.2
      simpa using this
    rw [hindeg0 p, if_pos hp.1] at h0
    have hlen : (get_profile_dependencies_in table p).length = 0 := by
      exact_mod_cast h0
    rw [List.length_eq_zero] at hlen
    rw [hlen] at hd
    simp at hd
  obtain ⟨sorted, hkahn, _, _, _, _, _⟩ :=
    kahn_loop_spec table all hallnd all.length
      (build_in_degree_in table all)
      (all.filter (fun p => build_in_degree_in table all p = 0)) []
      (hallnd.filter _) (fun x hx => List.mem_of_mem_filter hx)
      List.nodup_nil (fun x hx => by simp at hx)
      (fun x _ hx => by simp at hx)
      hqdeps0
      (fun n p hn => by simp at hn)
      (fun q hq => by
        rw [hindeg0 q, if_pos hq]
        have hfil : (get_profile_dependencies_in table q).filter
            (fun d => d ∉ ([] : List String)) =
            get_profile_dependencies_in table q := by
          apply List.filter_eq_self.2
          intro d _
          simp
        rw [hfil])
      (fun q hq h0 => Or.inr (List.mem_filter.2 ⟨hq, by simpa using h0⟩))
      (by simp)
  refine ⟨all, sorted, hcoll, hkahn, ?_⟩
  unfold resolve_profile_dependencies_in
  rw [hexp]
  simp only [hcoll, hkahn]
  split <;> rfl

/-- C5: the resolver terminates on every input against the real registry
(the fuel of the embedded loops never binds), and on any dependency table
whatsoever, when Kahn's output order is shorter than the collected profile
set the resolver returns the CircularDependencyError naming exactly the
unresolved node set instead of looping. -/
theorem C5_termination_and_cycle_detection :
    (∀ profiles, resolve_profile_dependencies profiles ≠ none) ∧
    (∀ (table : DepTable) (profiles expanded : List String),
      expand_meta_profiles_in table EXPAND_FUEL profiles = some (Except.ok expanded) →
      ∃ all sorted,
        collect_all_profiles_in table
          (expanded.length + ((table.map (fun kv => kv.2)).flatten).length)
          expanded expanded = some all ∧
        kahn_loop (build_adj_list_in table all) all.length
          (build_in_degree_in table all)
          (all.filter (fun p => build_in_degree_in table all p = 0)) [] = some sorted ∧
        (sorted.length ≠ all.length →
          resolve_profile_dependencies_in table profiles =
            some (Except.error (ProfileErr.circularDependency
              (all.filter (fun p => !(sorted.contains p))))))) := by
  constructor
  · intro profiles
    cases hexp : expand_meta_profiles profiles with
    | none =>
      exact absurd hexp (expand_ne_none PROFILE_DEPENDENCIES reg_dep_nonmeta profiles 6)
    | some r =>
      cases r with
      | error e =>
        unfold resolve_profile_dependencies resolve_profile_dependencies_in
        rw [show expand_meta_profiles_in PROFILE_DEPENDENCIES EXPAND_FUEL profiles
          = some (Except.error e) from hexp]
        simp
      | ok expanded =>
        obtain ⟨all, sorted, _, _, hres⟩ :=
          resolve_pipeline_spec PROFILE_DEPENDENCIES profiles expanded hexp
        unfold resolve_profile_dependencies
        rw [hres]
        simp
  · intro table profiles expanded hexp
    obtain ⟨all, sorted, hcoll, hkahn, hres⟩ :=
      resolve_pipeline_spec table profiles expanded hexp
    refine ⟨all, sorted, hcoll, hkahn, ?_⟩
    intro hne
    rw [hres, if_pos hne]

theorem C5_termination_and_cycle_detection_witness :
    resolve_profile_dependencies ["standard"] ≠ none ∧
    resolve_profile_dependencies_in [("a", ["b"]), ("b", ["a"])] ["a"]
      = some (Except.error (ProfileErr.circularDependency ["a", "b"])) := by
  constructor
  · exact C5_termination_and_cycle_detection.1 ["standard"]
  · obtain ⟨all, sorted, hcoll, hkahn, himpl⟩ :=
      C5_termination_and_cycle_detection.2 [("a", ["b"]), ("b", ["a"])] ["a"] ["a"]
        (by simp [expand_meta_profiles_in, EXPAND_FUEL, validate_profile_name_in,
          is_meta_profile, get_profile_category, alist_get, PROFILE_CATEGORIES, listUnion])
    have hall : all = ["a", "b"] := by
      have hc : collect_all_profiles_in [("a", ["b"]), ("b", ["a"])]
          ((["a"] : List String).length +
            ((([("a", ["b"]), ("b", ["a"])] : DepTable).map (fun kv => kv.2)).flatten).length)
          ["a"] ["a"] = some ["a", "b"] := by rfl
      exact Option.some.inj (hcoll.symm.trans hc)
    subst hall
    have hsorted : sorted = [] := by
      have hk : kahn_loop (build_adj_list_in [("a", ["b"]), ("b", ["a"])] ["a", "b"])
          (["a", "b"] : List String).length
          (build_in_degree_in [("a", ["b"]), ("b", ["a"])] ["a", "b"])
          ((["a", "b"] : List String).filter
            (fun p => build_in_degree_in [("a", ["b"]), ("b", ["a"])] ["a", "b"] p = 0)) []
          = some [] := by rfl
      exact Option.some.inj (hkahn.symm.trans hk)
    subst hsorted
    have hres := himpl (by decide)
    rw [hres]
    rfl

/-- The stages of `resolve_profile_dependencies` after meta-expansion
(profile_loader.py lines 117-179), taken as a function of the enumeration
`list(expanded)` that CPython's set iteration hands them: the closure loop,
the in-degree/adjacency maps, the zero-in-degree queue seeding and Kahn's
loop all iterate in the order of that enumeration, which the program does
not determine. -/
def resolve_from_expanded (table : DepTable) (expanded : List String) :
    Option (Except ProfileErr (List String)) :=
  match collect_all_profiles_in table
      (expanded.length + ((table.map (fun kv => kv.2)).flatten).length)
      expanded expanded with
  | none => none
  | some all =>
    let indeg := build_in_degree_in table all
    let adj := build_adj_list_in table all
    let queue := all.filter (fun p => indeg p = 0)
    match kahn_loop adj all.length indeg queue [] with
    | none => none
    | some sorted =>
      if sorted.length ≠ all.length then
        some (Except.error
          (ProfileErr.circularDependency (all.filter (fun p => !(sorted.contains p)))))
      else
        some (Except.ok sorted)

theorem perm_pair_cases {α : Type} {a b : α} (hab : a ≠ b) {e : List α}
    (he : e.Perm [a, b]) : e = [a, b] ∨ e = [b, a] := by
  have hlen : e.length = 2 := by simpa using he.length_eq
  have hnd : e.Nodup := he.symm.nodup (by simp [hab])
  cases e with
  | nil => simp at hlen
  | cons x t =>
    cases t with
    | nil => simp at hlen
    | cons y t2 =>
      cases t2 with
      | cons z t3 => simp at hlen
      | nil =>
        have hx : x ∈ [a, b] := he.mem_iff.mp (by simp)
        have hy : y ∈ [a, b] := he.mem_iff.mp (by simp)
        simp only [List.mem_cons, List.mem_singleton, List.not_mem_nil, or_false] at hx hy
        rcases hx with rfl | rfl <;> rcases hy with rfl | rfl
        · simp at hnd
        · exact Or.inl rfl
        · exact Or.inr rfl
        · simp at hnd

/-- C6: for every valid request, the execution planner's parallel groups,
concatenated in group order, are a permutation of the resolved execution
order, themselves topologically ordered, and every profile sits in a group
strictly after the groups holding all its dependencies. -/
theorem C6_parallel_groups (profiles : List String)
    (hvalid : ∀ p ∈ profiles, validate_profile_name p = true) :
    ∃ plan, get_profile_execution_plan profiles = some (Except.ok plan) ∧
      plan.parallel_groups.flatten.Perm plan.execution_order ∧
      (∀ n p, plan.parallel_groups.flatten.get? n = some p →
        ∀ d ∈ get_profile_dependencies p, d ∈ plan.parallel_groups.flatten.take n) ∧
      (∀ i g, plan.parallel_groups.get? i = some g → ∀ p ∈ g,
        ∀ d ∈ get_profile_dependencies p, d ∈ (plan.parallel_groups.take i).flatten) := by
  obtain ⟨E, order, hE, hres, hnd, _, hsets, _⟩ := resolve_spec profiles hvalid
  have hclosed : ∀ p ∈ order, ∀ d ∈ get_profile_dependencies p, d ∈ order := by
    intro p hp d hd
    rw [hsets] at hp ⊢
    exact Reach.step hp hd
  obtain ⟨gs, hloop, hset, hgnd, hprop⟩ := parallel_groups_spec order hclosed
    order.length [] order [] hnd List.nodup_nil (fun x h => h) (fun x h => by simp at h)
    (fun x hx => Or.inl hx) (fun x _ h => by simp at h) (by simp)
    (fun i g hg => by simp at hg) (le_refl _)
  refine ⟨{ requested := profiles
            expanded := E
            execution_order := order
            core_profiles := order.filter (fun p => is_core_profile p)
            analysis_profiles := order.filter
              (fun p => !(is_core_profile p) && !(is_meta_profile p))
            parallel_groups := gs
            estimated_duration := estimate_duration order
            total_profiles := order.length }, ?_, ?_, ?_, ?_⟩
  · unfold get_profile_execution_plan
    rw [hres]
    simp only [hloop, hE]
  · exact (List.perm_ext_iff_of_nodup hgnd hnd).2 hset
  · intro n p hn d hd
    have := topo_flatten_aux gs []
      (fun i g hg q hq d2 hd2 => by simpa using hprop i g hg q hq d2 hd2) n p hn d hd
    simpa using this
  · exact hprop

theorem C6_parallel_groups_witness :
    (∀ p ∈ ["technical-audit"], validate_profile_name p = true) ∧
    (∃ plan, get_profile_execution_plan ["technical-audit"] = some (Except.ok plan) ∧
      plan.parallel_groups.flatten.Perm plan.execution_order ∧
      (∀ n p, plan.parallel_groups.flatten.get? n = some p →
        ∀ d ∈ get_profile_dependencies p, d ∈ plan.parallel_groups.flatten.take n) ∧
      (∀ i g, plan.parallel_groups.get? i = some g → ∀ p ∈ g,
        ∀ d ∈ get_profile_dependencies p, d ∈ (plan.parallel_groups.take i).flatten)) :=
  ⟨by decide, C6_parallel_groups ["technical-audit"] (by decide)⟩

/-! ### Result schema (src/core/schema.py) and pipeline (src/orchestrator.py)

Check outputs are dicts; the model keeps exactly the keys the orchestrator
and schema read (`status`, `registered`, `active`, `ok`, `final_url`,
`error`, with `none` = key absent).  Network collaborators are oracles: the
pipeline is a pure function of their recorded outputs.  Persistence writes
(`update_domain_flags`, captured-domain inserts, `save_result`), logging,
timestamps and the execution-time field are external side effects or
wall-clock bookkeeping with no influence on any other field of the returned
record, and are not modelled. -/

structure CheckData where
  status : Option String := none
  registered : Option Bool := none
  active : Option Bool := none
  ok : Option Bool := none
  final_url : Option String := none
  error : Option String := none
deriving DecidableEq, Repr

structure Summary where
  reachable : Bool
  https : Bool
  issues : Nat
  warnings : Nat
  grade : String
deriving DecidableEq, Repr

structure ResultMeta where
  task : String
  status : String
  errors : List String
  skip_reason : Option String := none
deriving DecidableEq, Repr

structure DomainResult where
  domain : String
  meta : ResultMeta
  checks : List (String × CheckData)
  summary : Summary
deriving DecidableEq, Repr

/-- `new_domain_result` (schema.py lines 6-35). -/
def new_domain_result (domain : String) (task : String) : DomainResult :=
  { domain := domain
    meta := { task := task, status := "pending", errors := [], skip_reason := none }
    checks := []
    summary := { reachable := false, https := false, issues := 0, warnings := 0, grade := "N/A" } }

/-- `update_result_meta` (schema.py lines 38-56): sets the status and, when
the error list is truthy (non-empty), the errors. -/
def update_result_meta (result : DomainResult) (status : String) (errors : List String) :
    DomainResult :=
  { result with meta := { result.meta with
      status := status
      errors := if errors.isEmpty then result.meta.errors else errors } }

/-- `add_check_result` (schema.py lines 59-72): dict insert-or-overwrite. -/
def add_check_result (result : DomainResult) (check_name : String) (check_data : CheckData) :
    DomainResult :=
  { result with checks :=
      if result.checks.any (fun kv => kv.1 = check_name) then
        result.checks.map (fun kv => if kv.1 = check_name then (check_name, check_data) else kv)
      else result.checks ++ [(check_name, check_data)] }

/-- Python truthiness of a check's `error` value (`if check_data.get("error")`). -/
def errTruthy : Option String → Bool
  | none => false
  | some s => !(s.isEmpty)

/-- `update_summary` (schema.py lines 75-113). -/
def update_summary (result : DomainResult) : DomainResult :=
  let s1 :=
    match alist_get result.checks "status" with
    | some status_check =>
      { result.summary with
        reachable := status_check.ok.getD false
        https := match status_check.final_url with
          | some u => u.startsWith "https://"
          | none => false }
    | none => result.summary
  let issues := (result.checks.filter (fun kv => errTruthy kv.2.error)).length
  let warnings := 0
  let grade :=
    if !s1.reachable then "F"
    else if issues > 2 then "D"
    else if issues > 0 then "C"
    else if warnings > 0 then "B"
    else "A"
  { result with summary := { s1 with issues := issues, warnings := warnings, grade := grade } }

/-- The slice of the configuration the pipeline reads: the `checks` section
as a name ↦ `enabled` map (each entry models a `{enabled: …}` sub-dict, the
resolved boolean standing for `entry.get('enabled', True)`), and the
orchestrator default task name. -/
structure Config where
  checks : List (String × Bool)
  default_task : String
deriving DecidableEq, Repr

/-- The legacy branch of `determine_checks_to_run` (orchestrator.py lines 59-68). -/
def legacy_checks_to_run (config : Config) : List (String × Bool) :=
  [ ("whois", (alist_get config.checks "whois").getD true),
    ("status", (alist_get config.checks "status").getD true),
    ("redirect", (alist_get config.checks "redirect").getD true),
    ("robots", (alist_get config.checks "robots").getD true),
    ("sitemap", (alist_get config.checks "sitemap").getD true),
    ("ssl", (alist_get config.checks "ssl").getD true) ]

/-- `determine_checks_to_run` (orchestrator.py lines 41-93), with the profile
system available; a failed resolution falls back to legacy mode like the
`except` handler, and the fuel artifact `none` is mapped the same way. -/
def determine_checks_to_run (config : Config) (profiles : Option (List String)) :
    List (String × Bool) :=
  match profiles with
  | none => legacy_checks_to_run config
  | some [] => legacy_checks_to_run config
  | some ps =>
    match resolve_profile_dependencies ps with
    | some (Except.ok execution_order) =>
      [ ("quick-whois", execution_order.contains "quick-whois"),
        ("whois", execution_order.contains "whois"),
        ("http", execution_order.contains "http"),
        ("ssl", execution_order.contains "ssl"),
        ("dns", execution_order.contains "dns"),
        ("status", execution_order.contains "http"),
        ("redirect", execution_order.contains "http"),
        ("robots", execution_order.contains "seo"),
        ("sitemap", execution_order.contains "seo") ]
    | _ => legacy_checks_to_run config

/-- Recorded outputs of the external check collaborators for one domain. -/
structure Collaborators where
  das : CheckData
  whois : CheckData
  status_check : CheckData
  redirect : CheckData
  active : CheckData
  robots : CheckData
  sitemap : CheckData
  ssl : CheckData
deriving DecidableEq, Repr

/-- The shared shape of the fallible check invocations of `process_domain`
(`if checks_to_run.get(x): r = await run_x(...); add_check_result(...);
if 'error' in r: errors.append(f"x: {r['error']}")`). -/
def run_fallible_check (result : DomainResult) (errors : List String) (enabled : Bool)
    (name : String) (data : CheckData) : DomainResult × List String :=
  if enabled then
    (add_check_result result name data,
     match data.error with
     | some e => errors ++ [name ++ ": " ++ e]
     | none => errors)
  else (result, errors)

/-- STEP 4 and the status derivation of `process_domain`
(orchestrator.py lines 251-291). -/
def pipeline_full_suite (config : Config) (checks_to_run : List (String × Bool))
    (result : DomainResult) (errors : List String) (c : Collaborators) : DomainResult :=
  let s3 := run_fallible_check result errors
    ((alist_get checks_to_run "robots").getD true) "robots" c.robots
  let s4 := run_fallible_check s3.1 s3.2
    ((alist_get checks_to_run "sitemap").getD true) "sitemap" c.sitemap
  let s5 := run_fallible_check s4.1 s4.2
    ((alist_get checks_to_run "ssl").getD true) "ssl" c.ssl
  let errors := s5.2
  let status :=
    if errors.isEmpty then "success"
    else
      let total_checks := (config.checks.filter (fun kv => kv.2)).length
      if errors.length = total_checks then "error" else "partial"
  update_summary (update_result_meta s5.1 status errors)

/-- STEP 2 and STEP 3 of `process_domain` (orchestrator.py lines 201-249):
status and redirect checks, then the unconditional activity determination
with its early bailout. -/
def pipeline_connectivity (config : Config) (checks_to_run : List (String × Bool))
    (result : DomainResult) (errors : List String) (c : Collaborators) : DomainResult :=
  let s1 := run_fallible_check result errors
    ((alist_get checks_to_run "status").getD true) "status" c.status_check
  let s2 := run_fallible_check s1.1 s1.2
    ((alist_get checks_to_run "redirect").getD true) "redirects" c.redirect
  let result := add_check_result s2.1 "active" c.active
  let errors := s2.2
  let is_active := c.active.active.getD true
  if ¬is_active then
    let result := update_result_meta result "partial" errors
    { result with meta := { result.meta with skip_reason := some "inactive" } }
  else
    pipeline_full_suite config checks_to_run result errors c

/-- `process_domain` after `checks_to_run` has been determined
(orchestrator.py lines 136-291): STEP 1's registration variants with the
unregistered early bailout, then the connectivity stage. -/
def process_domain_core (domain : String) (config : Config) (task : String)
    (checks_to_run : List (String × Bool)) (c : Collaborators) : DomainResult :=
  let result := new_domain_result domain task
  let errors : List String := []
  if (alist_get checks_to_run "quick-whois").getD false then
    let result := add_check_result result "quick-whois" c.das
    let is_registered :=
      if c.das.status ≠ some "error" then c.das.status = some "registered" else true
    if ¬is_registered then
      let result := update_result_meta result "skipped" errors
      { result with meta := { result.meta with skip_reason := some "unregistered" } }
    else
      pipeline_connectivity config checks_to_run result errors c
  else if (alist_get checks_to_run "whois").getD true then
    let result := add_check_result result "whois" c.whois
    let is_registered := c.whois.registered.getD true
    if ¬is_registered then
      let result := update_result_meta result "skipped" errors
      { result with meta := { result.meta with skip_reason := some "unregistered" } }
    else
      pipeline_connectivity config checks_to_run result errors c
  else
    pipeline_connectivity config checks_to_run result errors c

/-- `process_domain` (orchestrator.py lines 96-291). -/
def process_domain (domain : String) (config : Config)
    (profiles : Option (List String)) (c : Collaborators) : DomainResult :=
  let task := match profiles with
    | some ps =>
      if ps.isEmpty then config.default_task else "profiles:" ++ String.intercalate "," ps
    | none => config.default_task
  process_domain_core domain config task (determine_checks_to_run config profiles) c

/-! ### Pipeline lemmas -/

/-- The grading policy of `update_summary`, factored out as stated by the
specification (the `F`/`D`/`C`/`B`/`A` if-chain). -/
def spec_grade (reachable : Bool) (issues warnings : Nat) : String :=
  if !reachable then "F"
  else if issues > 2 then "D"
  else if issues > 0 then "C"
  else if warnings > 0 then "B"
  else "A"

theorem update_summary_grade (r : DomainResult) :
    (update_summary r).summary.grade =
      spec_grade (update_summary r).summary.reachable
        (update_summary r).summary.issues (update_summary r).summary.warnings := by
  unfold update_summary spec_grade
  cases alist_get r.checks "status" <;> rfl

theorem add_check_result_meta (r : DomainResult) (n : String) (d : CheckData) :
    (add_check_result r n d).meta = r.meta := rfl

theorem update_summary_meta (r : DomainResult) :
    (update_summary r).meta = r.meta := rfl

theorem run_fallible_check_meta (r : DomainResult) (e : List String) (b : Bool)
    (n : String) (d : CheckData) : (run_fallible_check r e b n d).1.meta = r.meta := by
  unfold run_fallible_check
  split
  · rfl
  · rfl

theorem update_result_meta_skip (r : DomainResult) (s : String) (e : List String) :
    (update_result_meta r s e).meta.skip_reason = r.meta.skip_reason := rfl

theorem pipeline_full_suite_skip (config : Config) (ctr : List (String × Bool))
    (result : DomainResult) (errors : List String) (c : Collaborators) :
    (pipeline_full_suite config ctr result errors c).meta.skip_reason =
      result.meta.skip_reason := by
  unfold pipeline_full_suite
  rw [update_summary_meta]
  rw [update_result_meta_skip]
  rw [run_fallible_check_meta, run_fallible_check_meta, run_fallible_check_meta]

theorem pipeline_full_suite_grade (config : Config) (ctr : List (String × Bool))
    (result : DomainResult) (errors : List String) (c : Collaborators) :
    (pipeline_full_suite config ctr result errors c).summary.grade =
      spec_grade (pipeline_full_suite config ctr result errors c).summary.reachable
        (pipeline_full_suite config ctr result errors c).summary.issues
        (pipeline_full_suite config ctr result errors c).summary.warnings :=
  update_summary_grade _

/-- On the DONE tail, the recorded status is derived from the recorded error
list by the legacy-config count rule. -/
theorem pipeline_full_suite_status (config : Config) (ctr : List (String × Bool))
    (result : DomainResult) (errors : List String) (c : Collaborators)
    (hres : result.meta.errors = []) :
    (pipeline_full_suite config ctr result errors c).meta.status =
      (if (pipeline_full_suite config ctr result errors c).meta.errors.isEmpty then "success"
       else if (pipeline_full_suite config ctr result errors c).meta.errors.length
           = (config.checks.filter (fun kv => kv.2)).length then "error"
       else "partial") := by
  unfold pipeline_full_suite update_result_meta
  rw [update_summary_meta]
  simp only
  have hkeep : ∀ (s5 : DomainResult × List String), s5.1.meta.errors = [] →
      (if s5.2.isEmpty then s5.1.meta.errors else s5.2) = s5.2 := by
    intro s5 h
    split
    · rw [h]
      symm
      rwa [← List.isEmpty_iff]
    · rfl
  rw [hkeep _ (by rw [run_fallible_check_meta, run_fallible_check_meta,
    run_fallible_check_meta, hres])]

theorem pipeline_connectivity_skip_or (config : Config) (ctr : List (String × Bool))
    (result : DomainResult) (errors : List String) (c : Collaborators) :
    (pipeline_connectivity config ctr result errors c).meta.skip_reason = some "inactive" ∨
    ∃ r2 e2, r2.meta = result.meta ∧
      pipeline_connectivity config ctr result errors c = pipeline_full_suite config ctr r2 e2 c := by
  unfold pipeline_connectivity
  dsimp only
  split
  · left
    rfl
  · right
    refine ⟨_, _, ?_, rfl⟩
    rw [add_check_result_meta, run_fallible_check_meta, run_fallible_check_meta]

/-! ### Claim theorems: schema and pipeline (C10, C2, C4, C3, C8) -/

/-- C10: `update_summary` derives `reachable` solely from the status check's
`ok` field and `https` from its `final_url` prefix; with no status entry both
flags are left at their prior value (`False` for any pipeline-created
record), and a record that is not reachable is graded F regardless of which
other checks succeeded. -/
theorem C10_summary_from_status_only (r : DomainResult) :
    (∀ cdata, alist_get r.checks "status" = some cdata →
      (update_summary r).summary.reachable = cdata.ok.getD false ∧
      (update_summary r).summary.https =
        (match cdata.final_url with
         | some u => u.startsWith "https://"
         | none => false)) ∧
    (alist_get r.checks "status" = none →
      (update_summary r).summary.reachable = r.summary.reachable ∧
      (update_summary r).summary.https = r.summary.https ∧
      (r.summary.reachable = false → (update_summary r).summary.grade = "F")) := by
  constructor
  · intro cdata hc
    unfold update_summary
    rw [hc]
    exact ⟨rfl, rfl⟩
  · intro hc
    unfold update_summary
    rw [hc]
    refine ⟨rfl, rfl, ?_⟩
    intro hr
    simp [hr]

/-- A record whose only check ran successfully but which has no status
entry: `update_summary` leaves it unreachable and grades it F. -/
def c10_record : DomainResult :=
  { new_domain_result "pavyzdys.lt" "basic-scan" with
      checks := [("robots", { error := none })] }

theorem C10_summary_from_status_only_witness :
    alist_get c10_record.checks "status" = none ∧
    (update_summary c10_record).summary.reachable = false ∧
    (update_summary c10_record).summary.https = false ∧
    (update_summary c10_record).summary.issues = 0 ∧
    (update_summary c10_record).summary.grade = "F" := by
  have h := (C10_summary_from_status_only c10_record).2 (by rfl)
  exact ⟨by rfl, h.1, h.2.1, by rfl, h.2.2 rfl⟩

/-- Configurations and collaborator transcripts used by the concrete
pipeline runs below. -/
def config_empty : Config := { checks := [], default_task := "basic-scan" }

def config_status_only : Config :=
  { checks := [("status", true)], default_task := "basic-scan" }

/-- A transcript in which the full whois check reports the domain as NOT
registered: its result is `{status: "available"}` — run_whois_check returns
no top-level `registered` key on any path (whois_check.py lines 822-912) —
while everything else succeeds. -/
def collabs_whois_available : Collaborators :=
  { das := {}
    whois := { status := some "available" }
    status_check := { ok := some true, final_url := some "https://pavyzdys.lt/" }
    redirect := {}
    active := { active := some true }
    robots := {}
    sitemap := {}
    ssl := {} }

/-- C2 (bug exhibit): on the full-whois path the orchestrator reads
`whois_result.get('registered', True)`, a key `run_whois_check` never
produces, so the "not registered ⇒ skipped" bailout is dead: a domain whose
registration check reports not-registered (`status: "available"`) is pushed
through the whole pipeline and finishes `success` with connectivity and
full-suite entries, instead of `skipped`/`unregistered`. -/
theorem C2_full_whois_unregistered_not_skipped :
    (process_domain "pavyzdys.lt" config_empty none collabs_whois_available).meta.status
        = "success" ∧
    (process_domain "pavyzdys.lt" config_empty none collabs_whois_available).meta.skip_reason
        = none ∧
    alist_get (process_domain "pavyzdys.lt" config_empty none collabs_whois_available).checks
        "whois" = some { status := some "available" } ∧
    (alist_get (process_domain "pavyzdys.lt" config_empty none collabs_whois_available).checks
        "status").isSome ∧
    (alist_get (process_domain "pavyzdys.lt" config_empty none collabs_whois_available).checks
        "active").isSome ∧
    (alist_get (process_domain "pavyzdys.lt" config_empty none collabs_whois_available).checks
        "ssl").isSome := by
  decide

/-- A transcript in which the domain is registered and active, the status
check fails with a timeout, and every other check succeeds. -/
def collabs_status_fails : Collaborators :=
  { das := {}
    whois := { status := some "registered" }
    status_check := { error := some "timeout" }
    redirect := {}
    active := { active := some true }
    robots := {}
    sitemap := {}
    ssl := {} }

/-- C4 counterexample: with a legacy config whose checks section lists only
`status`, exactly one of the seven attempted checks fails (status; redirects,
robots, sitemap, ssl, whois and active all succeed), yet the overall status
is `error`, not `partial`: the code compares the error count against the
number of enabled entries of the legacy checks config, not against the
attempted checks. -/
theorem C4_counterexample_error_not_partial :
    (process_domain "pavyzdys.lt" config_status_only none collabs_status_fails).meta.status
        = "error" ∧
    (process_domain "pavyzdys.lt" config_status_only none collabs_status_fails).meta.skip_reason
        = none ∧
    (process_domain "pavyzdys.lt" config_status_only none collabs_status_fails).meta.errors
        = ["status: timeout"] ∧
    alist_get (process_domain "pavyzdys.lt" config_status_only none collabs_status_fails).checks
        "status" = some { error := some "timeout" } ∧
    alist_get (process_domain "pavyzdys.lt" config_status_only none collabs_status_fails).checks
        "redirects" = some {} ∧
    alist_get (process_domain "pavyzdys.lt" config_status_only none collabs_status_fails).checks
        "ssl" = some {} := by
  decide

theorem alist_get_cons {α : Type} (k : String) (v : α) (rest : List (String × α)) (m : String) :
    alist_get ((k, v) :: rest) m = if k = m then some v else alist_get rest m := rfl

theorem alist_get_map_overwrite :
    ∀ (l : List (String × CheckData)) (n : String) (d : CheckData),
      l.any (fun kv => kv.1 = n) = true →
      alist_get (l.map (fun kv => if kv.1 = n then (n, d) else kv)) n = some d := by
  intro l
  induction l with
  | nil => intro n d h; simp at h
  | cons kv rest ih =>
    intro n d h
    obtain ⟨k1, v1⟩ := kv
    by_cases hk : k1 = n
    · simp only [List.map_cons]
      dsimp only
      rw [if_pos hk, alist_get_cons, if_pos rfl]
    · simp only [List.map_cons]
      dsimp only
      rw [if_neg hk, alist_get_cons, if_neg hk]
      apply ih
      simp only [List.any_cons] at h
      rcases Bool.or_eq_true_iff.1 h with h1 | h1
      · exact absurd (by simpa using h1) hk
      · exact h1

theorem alist_get_append_one :
    ∀ (l : List (String × CheckData)) (n : String) (d : CheckData),
      alist_get (l ++ [(n, d)]) n = some d ∨
      (alist_get l n).isSome := by
  intro l
  induction l with
  | nil =>
    intro n d
    left
    rw [List.nil_append, alist_get_cons, if_pos rfl]
  | cons kv rest ih =>
    intro n d
    obtain ⟨k1, v1⟩ := kv
    by_cases hk : k1 = n
    · right
      rw [alist_get_cons, if_pos hk]
      rfl
    · rcases ih n d with h | h
      · left
        rw [List.cons_append, alist_get_cons, if_neg hk]
        exact h
      · right
        rw [alist_get_cons, if_neg hk]
        exact h

theorem alist_get_add_self (r : DomainResult) (n : String) (d : CheckData)
    (hfresh : (alist_get r.checks n).isSome = false) :
    alist_get (add_check_result r n d).checks n = some d := by
  unfold add_check_result
  split
  · next hany => exact alist_get_map_overwrite r.checks n d hany
  · simp only
    rcases alist_get_append_one r.checks n d with h | h
    · exact h
    · rw [h] at hfresh
      simp at hfresh

theorem alist_get_add_other (r : DomainResult) (n : String) (d : CheckData)
    (m : String) (hm : m ≠ n) :
    alist_get (add_check_result r n d).checks m = alist_get r.checks m := by
  unfold add_check_result
  split
  · next hany =>
    simp only
    clear hany
    induction r.checks with
    | nil => rfl
    | cons kv rest ih =>
      obtain ⟨k1, v1⟩ := kv
      by_cases hk : k1 = n
      · simp only [List.map_cons]
        dsimp only
        rw [if_pos hk, alist_get_cons, alist_get_cons,
          if_neg (fun hh => hm hh.symm), if_neg (fun hh => hm (hh.symm.trans hk))]
        exact ih
      · simp only [List.map_cons]
        dsimp only
        rw [if_neg hk, alist_get_cons, alist_get_cons]
        by_cases hkm : k1 = m
        · rw [if_pos hkm, if_pos hkm]
        · rw [if_neg hkm, if_neg hkm]
          exact ih
  · simp only
    induction r.checks with
    | nil =>
      rw [List.nil_append, alist_get_cons, if_neg (fun hh => hm hh.symm)]
    | cons kv rest ih =>
      obtain ⟨k1, v1⟩ := kv
      rw [List.cons_append, alist_get_cons, alist_get_cons]
      by_cases hkm : k1 = m
      · rw [if_pos hkm, if_pos hkm]
      · rw [if_neg hkm, if_neg hkm]
        exact ih

theorem alist_get_add_isSome (r : DomainResult) (n : String) (d : CheckData)
    (h : (alist_get r.checks n).isSome) :
    (alist_get (add_check_result r n d).checks n).isSome := by
  unfold add_check_result
  split
  · next hany =>
    rw [alist_get_map_overwrite r.checks n d hany]
    rfl
  · next hany =>
    exfalso
    apply hany
    rw [List.any_eq_true]
    rw [Option.isSome_iff_exists] at h
    obtain ⟨v, hv⟩ := h
    exact ⟨(n, v), alist_get_mem hv, by simp⟩

/-- Whichever branch STEP 1 took, a run whose record carries no skip reason
went through the full suite, starting from an error-free intermediate
record. -/
theorem process_domain_core_done (domain : String) (config : Config) (task : String)
    (ctr : List (String × Bool)) (c : Collaborators)
    (h : (process_domain_core domain config task ctr c).meta.skip_reason = none) :
    ∃ r2 e2, r2.meta.errors = [] ∧
      process_domain_core domain config task ctr c = pipeline_full_suite config ctr r2 e2 c := by
  have hconn : ∀ (result : DomainResult), result.meta.errors = [] →
      (pipeline_connectivity config ctr result [] c).meta.skip_reason = none →
      ∃ r2 e2, r2.meta.errors = [] ∧
        pipeline_connectivity config ctr result [] c = pipeline_full_suite config ctr r2 e2 c := by
    intro result hres hskip
    rcases pipeline_connectivity_skip_or config ctr result [] c with hk | ⟨r2, e2, hm, heq⟩
    · rw [hk] at hskip
      exact absurd hskip (by simp)
    · exact ⟨r2, e2, by rw [hm, hres], heq⟩
  unfold process_domain_core at h ⊢
  dsimp only at h ⊢
  split at h
  · next hqw =>
    rw [if_pos hqw]
    split at h
    · next herr =>
      simp only [if_pos herr]
      split at h
      · next hreg => exact absurd h (by simp)
      · next hreg =>
        rw [if_neg hreg]
        exact hconn _ rfl h
    · next herr =>
      simp only [if_neg herr]
      rw [if_neg (by simp : ¬¬True)]
      exact hconn _ rfl h
  · next hqw =>
    rw [if_neg hqw]
    split at h
    · next hw =>
      rw [if_pos hw]
      split at h
      · next hreg => exact absurd h (by simp)
      · next hreg =>
        rw [if_neg hreg]
        exact hconn _ rfl h
    · next hw =>
      rw [if_neg hw]
      exact hconn _ rfl h

theorem process_domain_done (domain : String) (config : Config)
    (profiles : Option (List String)) (c : Collaborators)
    (h : (process_domain domain config profiles c).meta.skip_reason = none) :
    ∃ r2 e2, r2.meta.errors = [] ∧
      process_domain domain config profiles c =
        pipeline_full_suite config (determine_checks_to_run config profiles) r2 e2 c := by
  unfold process_domain at h ⊢
  dsimp only at h ⊢
  exact process_domain_core_done _ _ _ _ _ h

/-- `resolve(["quick-check"])` evaluated: the meta-profile expands to the
fast registration check and the HTTP check. -/
theorem resolve_quick_check_eq :
    resolve_profile_dependencies ["quick-check"]
      = some (Except.ok ["quick-whois", "http"]) := by
  have hE : expand_meta_profiles_in PROFILE_DEPENDENCIES EXPAND_FUEL ["quick-check"]
      = some (Except.ok ["quick-whois", "http"]) := by
    simp [expand_meta_profiles_in, EXPAND_FUEL, validate_profile_name_in,
      is_meta_profile, get_profile_category, get_profile_dependencies_in, alist_get,
      PROFILE_DEPENDENCIES, PROFILE_CATEGORIES, listUnion]
  show resolve_profile_dependencies_in PROFILE_DEPENDENCIES ["quick-check"] = _
  unfold resolve_profile_dependencies_in
  rw [hE]
  rfl

theorem dctr_quick_check (config : Config) :
    determine_checks_to_run config (some ["quick-check"]) =
      [ ("quick-whois", true), ("whois", false), ("http", true), ("ssl", false),
        ("dns", false), ("status", true), ("redirect", true), ("robots", false),
        ("sitemap", false) ] := by
  unfold determine_checks_to_run
  dsimp only
  rw [resolve_quick_check_eq]
  rfl

/-- A transcript in which the DAS quick check reports the domain as NOT
registered (`status: "available"`). -/
def collabs_das_available : Collaborators :=
  { das := { status := some "available" }
    whois := {}
    status_check := {}
    redirect := {}
    active := {}
    robots := {}
    sitemap := {}
    ssl := {} }

/-- C3 (counterexample): a run that bails out at the registration check is
returned without ever passing through `update_summary`, so its grade stays
at the initial "N/A" — not the "F" the uniform grading policy assigns to an
unreachable domain. The grading policy is NOT applied uniformly across the
terminal states. -/
theorem C3_counterexample_skip_keeps_na :
    (process_domain "pavyzdys.lt" config_empty (some ["quick-check"])
        collabs_das_available).meta.status = "skipped" ∧
    (process_domain "pavyzdys.lt" config_empty (some ["quick-check"])
        collabs_das_available).meta.skip_reason = some "unregistered" ∧
    (process_domain "pavyzdys.lt" config_empty (some ["quick-check"])
        collabs_das_available).summary.reachable = false ∧
    (process_domain "pavyzdys.lt" config_empty (some ["quick-check"])
        collabs_das_available).summary.grade = "N/A" ∧
    ("N/A" : String) ≠ "F" := by
  have h := dctr_quick_check config_empty
  unfold process_domain
  rw [h]
  exact ⟨rfl, rfl, rfl, rfl, by decide⟩

/-- C3 (amended): the grading policy is applied exactly on the DONE path —
a result that carries no skip reason has the grade computed by the
F/D/C/B/A chain from its own summary fields; results of the SKIPPED and
PARTIAL_INACTIVE exits are returned before `update_summary` runs. -/
theorem C3_amended_done_grading (domain : String) (config : Config)
    (profiles : Option (List String)) (c : Collaborators)
    (h : (process_domain domain config profiles c).meta.skip_reason = none) :
    (process_domain domain config profiles c).summary.grade =
      spec_grade (process_domain domain config profiles c).summary.reachable
        (process_domain domain config profiles c).summary.issues
        (process_domain domain config profiles c).summary.warnings := by
  obtain ⟨r2, e2, hr2, heq⟩ := process_domain_done domain config profiles c h
  rw [heq]
  exact pipeline_full_suite_grade _ _ _ _ _

theorem C3_amended_done_grading_witness :
    (process_domain "pavyzdys.lt" config_empty none collabs_whois_available).meta.skip_reason
        = none ∧
    (process_domain "pavyzdys.lt" config_empty none collabs_whois_available).summary.grade =
      spec_grade
        (process_domain "pavyzdys.lt" config_empty none collabs_whois_available).summary.reachable
        (process_domain "pavyzdys.lt" config_empty none collabs_whois_available).summary.issues
        (process_domain "pavyzdys.lt" config_empty none
          collabs_whois_available).summary.warnings :=
  ⟨by decide, C3_amended_done_grading "pavyzdys.lt" config_empty none collabs_whois_available
    (by decide)⟩

/-- C4 (amended): on the DONE path the overall status is `success` when the
error list is empty, `error` when the number of recorded errors equals the
number of ENABLED ENTRIES OF THE LEGACY CHECKS CONFIG (not the number of
attempted checks), and `partial` otherwise. -/
theorem C4_amended_done_status (domain : String) (config : Config)
    (profiles : Option (List String)) (c : Collaborators)
    (h : (process_domain domain config profiles c).meta.skip_reason = none) :
    (process_domain domain config profiles c).meta.status =
      (if (process_domain domain config profiles c).meta.errors.isEmpty then "success"
       else if (process_domain domain config profiles c).meta.errors.length
           = (config.checks.filter (fun kv => kv.2)).length then "error"
       else "partial") := by
  obtain ⟨r2, e2, hr2, heq⟩ := process_domain_done domain config profiles c h
  rw [heq]
  exact pipeline_full_suite_status _ _ _ _ _ hr2

theorem C4_amended_done_status_witness :
    (process_domain "pavyzdys.lt" config_status_only none collabs_status_fails).meta.skip_reason
        = none ∧
    (process_domain "pavyzdys.lt" config_status_only none collabs_status_fails).meta.status =
      (if (process_domain "pavyzdys.lt" config_status_only none
            collabs_status_fails).meta.errors.isEmpty then "success"
       else if (process_domain "pavyzdys.lt" config_status_only none
            collabs_status_fails).meta.errors.length
           = (config_status_only.checks.filter (fun kv => kv.2)).length then "error"
       else "partial") :=
  ⟨by decide, C4_amended_done_status "pavyzdys.lt" config_status_only none collabs_status_fails
    (by decide)⟩

theorem run_fallible_check_true (r : DomainResult) (e : List String)
    (n : String) (d : CheckData) :
    (run_fallible_check r e true n d).1 = add_check_result r n d := by
  unfold run_fallible_check
  rw [if_pos rfl]

theorem alist_get_add_self_isSome (r : DomainResult) (n : String) (d : CheckData) :
    (alist_get (add_check_result r n d).checks n).isSome = true := by
  cases hf : (alist_get r.checks n).isSome with
  | false => rw [alist_get_add_self r n d hf]; rfl
  | true => exact alist_get_add_isSome r n d hf

/-- STEP 2-3 on the inactive exit: with status and redirect checks enabled
and the activity check reporting inactive, the record is finalized with
status `partial`, skip reason `inactive`, and exactly the status,
redirects and active entries added. -/
theorem pipeline_connectivity_inactive (config : Config) (ctr : List (String × Bool))
    (result : DomainResult) (errors : List String) (c : Collaborators)
    (hst : (alist_get ctr "status").getD true = true)
    (hrd : (alist_get ctr "redirect").getD true = true)
    (hact : c.active.active.getD true = false) :
    (pipeline_connectivity config ctr result errors c).meta.status = "partial" ∧
    (pipeline_connectivity config ctr result errors c).meta.skip_reason = some "inactive" ∧
    (pipeline_connectivity config ctr result errors c).checks =
      (add_check_result (add_check_result (add_check_result result "status" c.status_check)
        "redirects" c.redirect) "active" c.active).checks := by
  unfold pipeline_connectivity
  dsimp only
  rw [hst, hrd, hact]
  rw [if_pos (by simp : ¬(false = true))]
  rw [run_fallible_check_true, run_fallible_check_true]
  exact ⟨rfl, rfl, rfl⟩

/-- C8: a registered domain whose activity check reports inactive is
finalized on the PARTIAL_INACTIVE exit: overall status `partial`, skip
reason `inactive`, with the registration and connectivity entries (status,
redirects, active) present and no robots, sitemap or ssl entries. -/
theorem C8_registered_inactive_result (domain : String) (config : Config)
    (profiles : Option (List String)) (c : Collaborators)
    (hst : (alist_get (determine_checks_to_run config profiles) "status").getD true = true)
    (hrd : (alist_get (determine_checks_to_run config profiles) "redirect").getD true = true)
    (hact : c.active.active.getD true = false)
    (hreg :
      ((alist_get (determine_checks_to_run config profiles) "quick-whois").getD false = true ∧
        c.das.status = some "registered") ∨
      ((alist_get (determine_checks_to_run config profiles) "quick-whois").getD false = false ∧
        (alist_get (determine_checks_to_run config profiles) "whois").getD true = true ∧
        c.whois.registered.getD true = true)) :
    (process_domain domain config profiles c).meta.status = "partial" ∧
    (process_domain domain config profiles c).meta.skip_reason = some "inactive" ∧
    (alist_get (process_domain domain config profiles c).checks "status").isSome = true ∧
    (alist_get (process_domain domain config profiles c).checks "redirects").isSome = true ∧
    (alist_get (process_domain domain config profiles c).checks "active").isSome = true ∧
    ((alist_get (process_domain domain config profiles c).checks "quick-whois").isSome = true ∨
      (alist_get (process_domain domain config profiles c).checks "whois").isSome = true) ∧
    alist_get (process_domain domain config profiles c).checks "robots" = none ∧
    alist_get (process_domain domain config profiles c).checks "sitemap" = none ∧
    alist_get (process_domain domain config profiles c).checks "ssl" = none := by
  unfold process_domain
  dsimp only
  unfold process_domain_core
  dsimp only
  rcases hreg with ⟨hqw, hdas⟩ | ⟨hqw, hw, hwr⟩
  · rw [hqw, if_pos rfl, hdas]
    rw [if_neg (by decide)]
    obtain ⟨h1, h2, h3⟩ := pipeline_connectivity_inactive config
      (determine_checks_to_run config profiles) _ [] c hst hrd hact
    refine ⟨h1, h2, ?_, ?_, ?_, Or.inl ?_, ?_, ?_, ?_⟩
    · rw [h3, alist_get_add_other _ _ _ _ (by decide),
        alist_get_add_other _ _ _ _ (by decide)]
      exact alist_get_add_self_isSome _ _ _
    · rw [h3, alist_get_add_other _ _ _ _ (by decide)]
      exact alist_get_add_self_isSome _ _ _
    · rw [h3]
      exact alist_get_add_self_isSome _ _ _
    · rw [h3, alist_get_add_other _ _ _ _ (by decide),
        alist_get_add_other _ _ _ _ (by decide), alist_get_add_other _ _ _ _ (by decide)]
      exact alist_get_add_self_isSome _ _ _
    · rw [h3, alist_get_add_other _ _ _ _ (by decide),
        alist_get_add_other _ _ _ _ (by decide), alist_get_add_other _ _ _ _ (by decide),
        alist_get_add_other _ _ _ _ (by decide)]
      rfl
    · rw [h3, alist_get_add_other _ _ _ _ (by decide),
        alist_get_add_other _ _ _ _ (by decide), alist_get_add_other _ _ _ _ (by decide),
        alist_get_add_other _ _ _ _ (by decide)]
      rfl
    · rw [h3, alist_get_add_other _ _ _ _ (by decide),
        alist_get_add_other _ _ _ _ (by decide), alist_get_add_other _ _ _ _ (by decide),
        alist_get_add_other _ _ _ _ (by decide)]
      rfl
  · rw [hqw, if_neg (by simp), hw, if_pos rfl, hwr]
    rw [if_neg (not_not_intro rfl)]
    obtain ⟨h1, h2, h3⟩ := pipeline_connectivity_inactive config
      (determine_checks_to_run config profiles) _ [] c hst hrd hact
    refine ⟨h1, h2, ?_, ?_, ?_, Or.inr ?_, ?_, ?_, ?_⟩
    · rw [h3, alist_get_add_other _ _ _ _ (by decide),
        alist_get_add_other _ _ _ _ (by decide)]
      exact alist_get_add_self_isSome _ _ _
    · rw [h3, alist_get_add_other _ _ _ _ (by decide)]
      exact alist_get_add_self_isSome _ _ _
    · rw [h3]
      exact alist_get_add_self_isSome _ _ _
    · rw [h3, alist_get_add_other _ _ _ _ (by decide),
        alist_get_add_other _ _ _ _ (by decide), alist_get_add_other _ _ _ _ (by decide)]
      exact alist_get_add_self_isSome _ _ _
    · rw [h3, alist_get_add_other _ _ _ _ (by decide),
        alist_get_add_other _ _ _ _ (by decide), alist_get_add_other _ _ _ _ (by decide),
        alist_get_add_other _ _ _ _ (by decide)]
      rfl
    · rw [h3, alist_get_add_other _ _ _ _ (by decide),
        alist_get_add_other _ _ _ _ (by decide), alist_get_add_other _ _ _ _ (by decide),
        alist_get_add_other _ _ _ _ (by decide)]
      rfl
    · rw [h3, alist_get_add_other _ _ _ _ (by decide),
        alist_get_add_other _ _ _ _ (by decide), alist_get_add_other _ _ _ _ (by decide),
        alist_get_add_other _ _ _ _ (by decide)]
      rfl

/-- A transcript in which the full whois check reports the domain as
registered but the activity determination reports `active: false`. -/
def collabs_inactive : Collaborators :=
  { das := {}
    whois := { status := some "registered" }
    status_check := { ok := some true, final_url := some "http://pavyzdys.lt/" }
    redirect := {}
    active := { active := some false }
    robots := {}
    sitemap := {}
    ssl := {} }

theorem C8_registered_inactive_result_witness :
    (alist_get (determine_checks_to_run config_empty none) "status").getD true = true ∧
    collabs_inactive.active.active.getD true = false ∧
    (process_domain "pavyzdys.lt" config_empty none collabs_inactive).meta.status = "partial" ∧
    (process_domain "pavyzdys.lt" config_empty none collabs_inactive).meta.skip_reason
        = some "inactive" ∧
    alist_get (process_domain "pavyzdys.lt" config_empty none collabs_inactive).checks "ssl"
        = none :=
  ⟨by decide, by decide,
   (C8_registered_inactive_result "pavyzdys.lt" config_empty none collabs_inactive
     (by decide) (by decide) (by decide) (Or.inr ⟨by decide, by decide, by decide⟩)).1,
   (C8_registered_inactive_result "pavyzdys.lt" config_empty none collabs_inactive
     (by decide) (by decide) (by decide) (Or.inr ⟨by decide, by decide, by decide⟩)).2.1,
   (C8_registered_inactive_result "pavyzdys.lt" config_empty none collabs_inactive
     (by decide) (by decide) (by decide) (Or.inr ⟨by decide, by decide, by decide⟩)).2.2.2.2.2.2.2.2⟩

/-! ### domain_utils.py — same-domain-family classification

Python strings are embedded as `List Char`. `urlparse(url).hostname` is
modelled for scheme-carrying URLs: the authority runs from after the first
`://` to the first `/`, `?` or `#`; the userinfo up to the last `@` and a
`:port` suffix are dropped, and the hostname property lowercases. -/

/-- ASCII lowering, the effect of `str.lower()` on the ASCII hostnames in
scope. -/
def asciiLower (c : Char) : Char :=
  if 'A' ≤ c ∧ c ≤ 'Z' then Char.ofNat (c.toNat + 32) else c

/-- The text before and after the first occurrence of `sep`, if any
(`'sep' in s`, `str.partition`). -/
def splitFirst (sep : List Char) : List Char → Option (List Char × List Char)
  | [] => none
  | c :: rest =>
    if sep.isPrefixOf (c :: rest) then some ([], (c :: rest).drop sep.length)
    else
      match splitFirst sep rest with
      | some (pre, post) => some (c :: pre, post)
      | none => none

/-- `str.split(sep)` for a one-character separator. -/
def splitAllChar (sep : Char) : List Char → List (List Char)
  | [] => [[]]
  | c :: rest =>
    let r := splitAllChar sep rest
    if c = sep then [] :: r
    else
      match r with
      | h :: t => (c :: h) :: t
      | [] => [[c]]

/-- `'.'.join(parts)`. -/
def joinDots : List (List Char) → List Char
  | [] => []
  | [x] => x
  | x :: xs => x ++ '.' :: joinDots xs

/-- domain_utils.py lines 32-38. -/
def KEEP_SUBDOMAIN_PATTERNS : List String :=
  [".gov.lt", ".lrv.lt", ".edu.lt", ".mil.lt"]

/-- `extract_main_domain` (domain_utils.py lines 63-129) with the default
keep patterns. -/
def extract_main_domain (url : List Char) : List Char :=
  let url2 :=
    if (splitFirst (String.toList "://") url).isSome then url
    else String.toList "http://" ++ url
  let hostname :=
    match splitFirst (String.toList "://") url2 with
    | some (_, rest) =>
      let netloc := rest.takeWhile (fun c => !(c == '/' || c == '?' || c == '#'))
      let hostinfo := (splitAllChar '@' netloc).getLastD []
      let host := hostinfo.takeWhile (fun c => !(c == ':'))
      host.map asciiLower
    | none => []
  if hostname.isEmpty then url2
  else
    let hostname :=
      if (String.toList "www.").isPrefixOf hostname then hostname.drop 4 else hostname
    if KEEP_SUBDOMAIN_PATTERNS.any (fun p => (String.toList p).isSuffixOf hostname) then
      hostname
    else
      let parts := splitAllChar '.' hostname
      if 2 ≤ parts.length then joinDots (parts.drop (parts.length - 2))
      else hostname

/-- `is_same_domain_family` (domain_utils.py lines 218-245). -/
def is_same_domain_family (domain1 domain2 : List Char) : Bool :=
  (extract_main_domain domain1).map asciiLower == (extract_main_domain domain2).map asciiLower

/-- C9 (bug exhibit): the comparison does equate `www.`, protocol and case
variants, and does keep `.gov.lt`-pattern subdomains significant; but a
distinct non-www subdomain of a regular domain is stripped to the root by
`extract_main_domain`, so `blog.example.lt` is classified as the SAME
family as `example.lt` — the function's own contract
(`(example.lt, blog.example.lt) → False`) says the opposite. -/
theorem C9_subdomain_family_counterexample :
    is_same_domain_family (String.toList "example.lt") (String.toList "www.example.lt")
        = true ∧
    is_same_domain_family (String.toList "example.lt") (String.toList "https://example.lt")
        = true ∧
    is_same_domain_family (String.toList "example.lt") (String.toList "EXAMPLE.LT") = true ∧
    is_same_domain_family (String.toList "stat.gov.lt") (String.toList "lrv.gov.lt")
        = false ∧
    extract_main_domain (String.toList "blog.example.lt") = String.toList "example.lt" ∧
    is_same_domain_family (String.toList "example.lt") (String.toList "blog.example.lt")
        = true := by
  decide

/-- C7 (amended): whatever order CPython set iteration enumerates the
expanded set `{quick-whois, http}` in, the resolver returns exactly the
fast registration check and the HTTP check and never the full whois
profile; and the entry point under the embedding's enumeration does so
too.  The RELATIVE order of the two is a tie among dependency-free
profiles which the program leaves to set iteration order. -/
theorem C7_quick_check_membership (e : List String)
    (he : e.Perm ["quick-whois", "http"]) :
    (∃ out, resolve_from_expanded PROFILE_DEPENDENCIES e = some (Except.ok out) ∧
      out.Perm ["quick-whois", "http"] ∧ "whois" ∉ out) ∧
    (∃ out0, resolve_profile_dependencies ["quick-check"] = some (Except.ok out0) ∧
      out0.Perm ["quick-whois", "http"] ∧ "whois" ∉ out0) := by
  constructor
  · rcases perm_pair_cases (by decide) he with h | h <;> subst h
    · exact ⟨["quick-whois", "http"], rfl, by decide, by decide⟩
    · exact ⟨["http", "quick-whois"], rfl, by decide, by decide⟩
  · exact ⟨["quick-whois", "http"], resolve_quick_check_eq, by decide, by decide⟩

theorem C7_quick_check_membership_witness :
    (["http", "quick-whois"] : List String).Perm ["quick-whois", "http"] ∧
    ((∃ out, resolve_from_expanded PROFILE_DEPENDENCIES ["http", "quick-whois"]
        = some (Except.ok out) ∧
      out.Perm ["quick-whois", "http"] ∧ "whois" ∉ out) ∧
    (∃ out0, resolve_profile_dependencies ["quick-check"] = some (Except.ok out0) ∧
      out0.Perm ["quick-whois", "http"] ∧ "whois" ∉ out0)) :=
  ⟨by decide, C7_quick_check_membership ["http", "quick-whois"] (by decide)⟩

/-- C7 (counterexample to the frozen claim's order conjunct): the two
profiles of the expanded set are both dependency-free, so their relative
order in the output is decided entirely by the enumeration the set
iteration produced; under the enumeration that yields http first the
resolver returns ["http", "quick-whois"].  "quick-whois before http in the
returned order" is therefore not a property of the program, only of one of
its possible set-iteration orders (the embedding's insertion order being
one such). -/
theorem C7_counterexample_tie_order :
    resolve_from_expanded PROFILE_DEPENDENCIES ["http", "quick-whois"]
      = some (Except.ok ["http", "quick-whois"]) ∧
    resolve_from_expanded PROFILE_DEPENDENCIES ["quick-whois", "http"]
      = some (Except.ok ["quick-whois", "http"]) ∧
    resolve_profile_dependencies ["quick-check"]
      = some (Except.ok ["quick-whois", "http"]) ∧
    ¬ (∀ e : List String, e.Perm ["quick-whois", "http"] →
        ∀ out, resolve_from_expanded PROFILE_DEPENDENCIES e = some (Except.ok out) →
          out = ["quick-whois", "http"]) := by
  refine ⟨rfl, rfl, resolve_quick_check_eq, ?_⟩
  intro h
  have hc := h ["http", "quick-whois"] (by decide) ["http", "quick-whois"] rfl
  exact absurd hc (by decide)

end Dago
